import Mathlib

/-!
# buildifier/utils: file classification, common path prefix, file discovery,
# parser and linter dispatch

A shallow embedding of `buildifier/utils/utils.go`.

Go strings are byte sequences; a string is modelled as a `List Nat` whose
elements are the byte values.  A run-time panic of the Go code (index or slice
bound out of range, nil dereference) is modelled by the result `none`.

The functions of the Go standard library that the file calls are modelled for
a Unix platform (`os.PathSeparator = '/'`).  `filepath.Clean` is, in addition,
a parameter of `CommonPrefix`, so that what is proved about `CommonPrefix`
holds for the path cleaner of every platform.

The file system is an input of `ExpandDirectories`: the result of `os.Stat` at
each path, and the tree of entries that `filepath.Walk` finds there.  The
package `warn` is an input of `Lint`.  A variable that the Go code updates in
place (`files`, the parsed file) is passed and returned explicitly.
-/

namespace Buildifier

/-! ## Go strings -/

/-- UTF-8 encoding of a code point, as done by Go's `utf8.EncodeRune`; the
surrogate and out-of-range cases give the encoding of U+FFFD. -/
def encodeRune (r : Nat) : List Nat :=
  if r < 0x80 then [r]
  else if r < 0x800 then [0xC0 ||| (r >>> 6), 0x80 ||| (r &&& 0x3F)]
  else if r > 0x10FFFF ∨ (0xD800 ≤ r ∧ r ≤ 0xDFFF) then [0xEF, 0xBF, 0xBD]
  else if r < 0x10000 then
    [0xE0 ||| (r >>> 12), 0x80 ||| ((r >>> 6) &&& 0x3F), 0x80 ||| (r &&& 0x3F)]
  else
    [0xF0 ||| (r >>> 18), 0x80 ||| ((r >>> 12) &&& 0x3F),
     0x80 ||| ((r >>> 6) &&& 0x3F), 0x80 ||| (r &&& 0x3F)]

/-- Go conversion `string(b)` of a value `b` of type `byte`: an integer
converted to a string yields the UTF-8 representation of that code point. -/
def byteToString (b : Nat) : List Nat := encodeRune b

/-- The bytes of a Go string literal. -/
def lit (s : String) : List Nat := (s.toList.map Char.toNat).flatMap encodeRune

/-- Go index expression `s[i]`; `none` is the run-time panic. -/
def index (s : List Nat) (i : Nat) : Option Nat := s[i]?

/-- Go slice expression `c[:n]`; `none` is the run-time panic. -/
def sliceTo (c : List Nat) (n : Nat) : Option (List Nat) :=
  if n ≤ c.length then some (c.take n) else none

/-! ## Standard library: `os`, `strings`, `path/filepath` (Unix) -/

namespace os

/-- The constant `os.PathSeparator` on Unix, the byte `'/'`. -/
def PathSeparator : Nat := 47

/-- The function `os.IsPathSeparator` on Unix. -/
def IsPathSeparator (c : Nat) : Bool := c == PathSeparator

end os

namespace strings

/-- The function `strings.HasPrefix`:
`len(s) >= len(prefix) && s[:len(prefix)] == prefix`. -/
def HasPrefix (s pre : List Nat) : Bool :=
  decide (s.length ≥ pre.length) && (s.take pre.length == pre)

end strings

namespace filepath

/-- Loop of `filepath.Ext`, about to look at index `n - 1`:
`for i := len(path) - 1; i >= 0 && !os.IsPathSeparator(path[i]); i--`. -/
def extLoop (path : List Nat) : Nat → List Nat
  | 0 => []
  | i + 1 =>
    match path[i]? with
    | none => []
    | some b =>
      if os.IsPathSeparator b then []
      else if b = 46 then path.drop i
      else extLoop path i

/-- The function `filepath.Ext`: the suffix beginning at the final dot in the
final element of `path`, empty if there is no dot. -/
def Ext (path : List Nat) : List Nat := extLoop path path.length

/-- The backtracking loop of `filepath.Clean` at a `..` element, started at
write index `w`:
`for out.w > dotdot && !os.IsPathSeparator(out.index(out.w)) { out.w-- }`. -/
def backtrack (out : List Nat) (dotdot : Nat) : Nat → Nat
  | 0 => 0
  | w + 1 =>
    if w + 1 > dotdot && !os.IsPathSeparator (out.getD (w + 1) 0) then
      backtrack out dotdot w
    else w + 1

/-- Main loop of `filepath.Clean` on Unix.  `rest` is the unread part of the
path (`path[r:]`), `out` the bytes written so far (`out.w = out.length`),
`dotdot` the index in `out` where `..` must stop.  Every iteration reads at
least one byte, so `len(path)` iterations are enough. -/
def cleanLoop (rooted : Bool) : Nat → List Nat → List Nat → Nat → List Nat
  | 0, _, out, _ => out
  | fuel + 1, rest, out, dotdot =>
    match rest with
    | [] => out
    | b :: t =>
      if os.IsPathSeparator b then
        -- empty path element
        cleanLoop rooted fuel t out dotdot
      else if b = 46 ∧ (t = [] ∨ os.IsPathSeparator (t.headD 0)) then
        -- . element
        cleanLoop rooted fuel t out dotdot
      else if b = 46 ∧ t.head? = some 46 ∧
          (t.tail = [] ∨ os.IsPathSeparator (t.tail.headD 0)) then
        -- .. element: remove to last separator
        if out.length > dotdot then
          cleanLoop rooted fuel t.tail
            (out.take (backtrack out dotdot (out.length - 1))) dotdot
        else if !rooted then
          cleanLoop rooted fuel t.tail
            ((if out.length > 0 then out ++ [os.PathSeparator] else out) ++ [46, 46])
            ((if out.length > 0 then out ++ [os.PathSeparator] else out) ++ [46, 46]).length
        else cleanLoop rooted fuel t.tail out dotdot
      else
        -- real path element: add slash if needed, copy element
        cleanLoop rooted fuel
          ((b :: t).dropWhile (fun x => !os.IsPathSeparator x))
          ((if (rooted && out.length != 1) || (!rooted && out.length != 0)
              then out ++ [os.PathSeparator] else out)
            ++ (b :: t).takeWhile (fun x => !os.IsPathSeparator x))
          dotdot

/-- The function `filepath.Clean` on Unix: the shortest path name equivalent
to `path` by purely lexical processing (multiple separators replaced by one,
`.` elements eliminated, inner `..` elements eliminated with the element
before them, `..` at the start of a rooted path eliminated; the empty result
is `.`). -/
def Clean (path : List Nat) : List Nat :=
  if path = [] then [46]
  else
    let rooted := os.IsPathSeparator (path.headD 0)
    let out :=
      if rooted then cleanLoop rooted path.length path.tail [os.PathSeparator] 1
      else cleanLoop rooted path.length path [] 0
    if out.length = 0 then [46] else out

end filepath

/-! ## `utils.go` -/

/-- The function `isStarlarkFile` (utils.go, lines 31-45). -/
def isStarlarkFile (name : List Nat) : Bool :=
  let ext := filepath.Ext name
  if ext = lit ".bzl" ∨ ext = lit ".sky" ∨ ext = lit ".star" then true
  else if ext = lit ".bazel" ∨ ext = lit ".oss" then
    -- BUILD.bazel or BUILD.foo.bazel should be treated as Starlark files,
    -- same for WORKSPACE and MODULE
    strings.HasPrefix name (lit "BUILD.") || strings.HasPrefix name (lit "WORKSPACE.")
      || strings.HasPrefix name (lit "MODULE.")
  else name == lit "BUILD" || name == lit "WORKSPACE"

/-- Comparison loop of `CommonPrefix` (utils.go, lines 87-92) over the
indices `i` still to visit, `0, 1, ..., len(c) - 1` at the start:
`for i := 0; i < len(c); i++ { if v[i] != c[i] { c = c[:i]; break } }`. -/
def compareLoop (v c : List Nat) : List Nat → Option (List Nat)
  | [] => some c
  | i :: is =>
    match index v i, index c i with
    | some a, some b => if a ≠ b then sliceTo c i else compareLoop v c is
    | _, _ => none

/-- One iteration of the loop over `paths[1:]` in `CommonPrefix` (utils.go,
lines 83-92) for the cleaned path `v` with its sentinel: cut `c` to the length
of `v` if `v` is shorter, then cut it at the first non-common byte. -/
def truncateTo (v c : List Nat) : Option (List Nat) :=
  (if v.length < c.length then sliceTo c v.length else some c).bind
    fun c1 => compareLoop v c1 (List.range' 0 c1.length)

/-- Final loop of `CommonPrefix` (utils.go, lines 96-101), about to look at
index `n - 1`:
`for i := len(c) - 1; i >= 0; i-- { if c[i] == sep { c = c[:i]; break } }`. -/
def trimLoop (sep : Nat) (c : List Nat) : Nat → Option (List Nat)
  | 0 => some c
  | i + 1 =>
    match index c i with
    | none => none
    | some b => if b = sep then sliceTo c i else trimLoop sep c i

/-- The function `CommonPrefix` (utils.go, lines 51-104).  `Clean` stands for
`filepath.Clean`; `sep` is a byte. -/
def CommonPrefix (Clean : List Nat → List Nat) (sep : Nat) :
    List (List Nat) → Option (List Nat)
  | [] => some []
  | [p] => some (Clean p)
  | p0 :: p1 :: rest =>
    ((p1 :: rest).foldlM (fun c v => truncateTo (Clean v ++ byteToString sep) c)
      (Clean p0 ++ [sep])).bind
      fun c => trimLoop sep c c.length

namespace build

/-- The parse entry points of the external package `build` that `GetParser`
can return, each identified by its name. -/
inductive ParseFunc where
  | ParseBuild
  | ParseBzl
  | Parse
  | ParseWorkspace
  | ParseModule
  | ParseDefault
  deriving DecidableEq, Repr

end build

/-- The function `GetParser` (utils.go, lines 139-154). -/
def GetParser (inputType : List Nat) : build.ParseFunc :=
  if inputType = lit "build" then build.ParseFunc.ParseBuild
  else if inputType = lit "bzl" then build.ParseFunc.ParseBzl
  else if inputType = lit "auto" then build.ParseFunc.Parse
  else if inputType = lit "workspace" then build.ParseFunc.ParseWorkspace
  else if inputType = lit "module" then build.ParseFunc.ParseModule
  else build.ParseFunc.ParseDefault

/-! ## Standard library: errors, file information and `filepath.Walk` -/

/-- Go error values, as far as `ExpandDirectories` can tell them apart: the
sentinel `filepath.SkipDir`, and the errors reported by the file system, each
identified by a number. -/
inductive Err where
  | SkipDir
  | fsError (id : Nat)
  deriving DecidableEq, Repr

namespace os

/-- What utils.go reads of an `os.FileInfo`: the methods `Name()` and
`IsDir()`. -/
structure FileInfo where
  Name : List Nat
  IsDir : Bool
  deriving DecidableEq, Repr

end os

namespace strings

/-- Loop of `strings.ReplaceAll` for a non-empty `old`: `skip` bytes of a
matched occurrence are still to be passed over. -/
def replaceLoop (old new : List Nat) : List Nat → Nat → List Nat
  | [], _ => []
  | _ :: t, skip + 1 => replaceLoop old new t skip
  | b :: t, 0 =>
    if old.isPrefixOf (b :: t) then new ++ replaceLoop old new t (old.length - 1)
    else b :: replaceLoop old new t 0

/-- The function `strings.ReplaceAll` for a non-empty `old`: every
non-overlapping occurrence of `old` in `s` is replaced by `new`. -/
def ReplaceAll (s old new : List Nat) : List Nat := replaceLoop old new s 0

end strings

mutual

/-- What `filepath.Walk` finds at one path: the `lstat` of the path fails, or
it is not a directory, or it is a directory whose names `readDirNames` returns
(in lexical order, each with what is found there), or it is a directory that
`readDirNames` fails to read.  `name` is the name of the entry, which
`info.Name()` returns. -/
inductive Entry where
  | lstatError (name : List Nat) (err : Err)
  | file (name : List Nat)
  | dir (name : List Nat) (entries : Entries)
  | unreadableDir (name : List Nat) (err : Err)

/-- The entries of a directory, in the order of `readDirNames`. -/
inductive Entries where
  | nil
  | cons (head : Entry) (tail : Entries)

end

/-- The name of an entry. -/
def Entry.name : Entry → List Nat
  | .lstatError name _ => name
  | .file name => name
  | .dir name _ => name
  | .unreadableDir name _ => name

/-- Whether `lstat` reports the entry as a directory. -/
def Entry.isDir : Entry → Bool
  | .dir _ _ => true
  | .unreadableDir _ _ => true
  | _ => false

/-- Whether the `lstat` of the entry fails. -/
def Entry.lstatFails : Entry → Bool
  | .lstatError _ _ => true
  | _ => false

namespace filepath

/-- The function `filepath.Join` on Unix: the elements from the first
non-empty one on, joined by the separator, and cleaned; empty if all elements
are empty. -/
def Join (elem : List (List Nat)) : List Nat :=
  match elem.dropWhile (fun e => e.isEmpty) with
  | [] => []
  | rest => Clean (List.intercalate [os.PathSeparator] rest)

/-- The type `filepath.WalkFunc` of the function called at each entry, with
the state it reads and writes made explicit.  `info` is `none` for the nil
`FileInfo`, `err` is `none` for the nil error; the result `none` is a run-time
panic. -/
abbrev WalkFunc (σ : Type) :=
  List Nat → Option os.FileInfo → Option Err → σ → Option (σ × Option Err)

mutual

/-- The `lstat` of `path`, followed by `walkFn(path, nil, err)` when it fails
and by the recursive function `walk(path, info, walkFn)` when it succeeds;
the result is the state and the error that call returns.  This is the common
part of `filepath.Walk` and of the body of the loop of `walk`. -/
def visit {σ : Type} (walkFn : WalkFunc σ) (path : List Nat) : Entry → σ → Option (σ × Option Err)
  | .lstatError _ err, s => walkFn path none (some err) s
  | .file name, s => walkFn path (some ⟨name, false⟩) none s
  | .unreadableDir name err, s => walkFn path (some ⟨name, true⟩) (some err) s
  | .dir name entries, s =>
    match walkFn path (some ⟨name, true⟩) none s with
    | none => none
    | some (s1, some err1) => some (s1, some err1)
    | some (s1, none) => walkNames walkFn path entries s1

/-- The loop `for _, name := range names` of `walk` over the entries of the
directory `path`. -/
def walkNames {σ : Type} (walkFn : WalkFunc σ) (path : List Nat) :
    Entries → σ → Option (σ × Option Err)
  | .nil, s => some (s, none)
  | .cons e rest, s =>
    match visit walkFn (Join [path, e.name]) e s with
    | none => none
    | some (s1, none) => walkNames walkFn path rest s1
    | some (s1, some err) =>
      if e.lstatFails then
        if err ≠ Err.SkipDir then some (s1, some err) else walkNames walkFn path rest s1
      else
        if !e.isDir || err ≠ Err.SkipDir then some (s1, some err)
        else walkNames walkFn path rest s1

end

/-- The function `filepath.Walk`, on what is found at `root`. -/
def Walk {σ : Type} (walkFn : WalkFunc σ) (root : List Nat) (found : Entry) (s : σ) :
    Option (σ × Option Err) :=
  match visit walkFn root found s with
  | none => none
  | some (s1, err) => if err = some Err.SkipDir then some (s1, none) else some (s1, err)

end filepath

/-- What `ExpandDirectories` sees of the file system: the result of
`os.Stat` at each path, and what `filepath.Walk` finds there. -/
structure FileSystem where
  Stat : List Nat → Except Err os.FileInfo
  Found : List Nat → Entry

/-- The function `skip` (utils.go, lines 47-49). -/
def skip (info : os.FileInfo) : Bool := info.IsDir && info.Name == lit ".git"

/-- The function literal passed to `filepath.Walk` in `ExpandDirectories`
(utils.go, lines 119-130); the state is the variable `files`.  Reading `info`
when it is nil is a run-time panic. -/
def expandWalkFn : filepath.WalkFunc (List (List Nat)) := fun path info err files =>
  match err with
  | some e => some (files, some e)
  | none =>
    match info with
    | none => none
    | some info =>
      if skip info then some (files, some Err.SkipDir)
      else if !info.IsDir && isStarlarkFile info.Name then some (files ++ [path], none)
      else some (files, none)

/-- The loop of `ExpandDirectories` (utils.go, lines 110-134) over the
arguments still to visit, with the variable `files`. -/
def expandLoop (fs : FileSystem) :
    List (List Nat) → List (List Nat) → Option (List (List Nat) × Option Err)
  | [], files => some (files, none)
  | arg :: args, files =>
    match fs.Stat arg with
    | .error err => some ([], some err)
    | .ok info =>
      if !info.IsDir then expandLoop fs args (files ++ [arg])
      else
        match filepath.Walk expandWalkFn arg (fs.Found arg) files with
        | none => none
        | some (_, some err) => some ([], some err)
        | some (files1, none) => expandLoop fs args files1

/-- The function `ExpandDirectories` (utils.go, lines 108-136): the list of
files and the error it returns; `none` is a run-time panic. -/
def ExpandDirectories (fs : FileSystem) (args : List (List Nat)) :
    Option (List (List Nat) × Option Err) :=
  expandLoop fs args []

namespace build

/-- The type `build.File` of the external package `build`, as far as utils.go
reads it: the field `WorkspaceRoot`; `Syntax` stands for the rest of the
file. -/
structure File (Syntax : Type) where
  WorkspaceRoot : List Nat
  Syntax : Syntax

end build

namespace warn

/-- The external package `warn`, as far as utils.go uses it: the constant
`ModeWarn`, the constructor `NewFileReader`, and the functions `FileWarnings`
and `FixWarnings`, which receive a pointer to the file and so return, here,
the file as they leave it. -/
structure Package (Syntax Finding FileReader LintMode Formatted : Type) where
  ModeWarn : LintMode
  NewFileReader : (List Nat → Except Err (List Nat)) → FileReader
  FileWarnings : build.File Syntax → List (List Nat) → Option Formatted → LintMode →
    Option FileReader → List Finding × build.File Syntax
  FixWarnings : build.File Syntax → List (List Nat) → Bool → Option FileReader →
    build.File Syntax

end warn

/-- The function `getFileReader` (utils.go, lines 158-172); `ReadFile` stands
for `ioutil.ReadFile`, and the result `none` is the nil pointer. -/
def getFileReader {Syntax Finding FileReader LintMode Formatted : Type}
    (w : warn.Package Syntax Finding FileReader LintMode Formatted)
    (ReadFile : List Nat → Except Err (List Nat)) (workspaceRoot : List Nat) :
    Option FileReader :=
  if workspaceRoot = lit "" then none
  else
    some (w.NewFileReader fun filename =>
      -- Use OS-specific path separators
      ReadFile (filepath.Join
        [workspaceRoot, strings.ReplaceAll filename (lit "/") (encodeRune os.PathSeparator)]))

/-- The function `Lint` (utils.go, lines 175-185): the findings it returns,
the nil slice being the empty list, and the file as the call leaves it. -/
def Lint {Syntax Finding FileReader LintMode Formatted : Type}
    (w : warn.Package Syntax Finding FileReader LintMode Formatted)
    (ReadFile : List Nat → Except Err (List Nat))
    (f : build.File Syntax) (lint : List Nat) (warningsList : List (List Nat))
    (verbose : Bool) : List Finding × build.File Syntax :=
  let fileReader := getFileReader w ReadFile f.WorkspaceRoot
  if lint = lit "warn" then w.FileWarnings f warningsList none w.ModeWarn fileReader
  else if lint = lit "fix" then ([], w.FixWarnings f warningsList verbose fileReader)
  else ([], f)

/-! ## Auxiliary notions used to state what the loops compute -/

/-- Longest common prefix of two byte sequences. -/
def lcp : List Nat → List Nat → List Nat
  | a :: as, b :: bs => if a = b then a :: lcp as bs else []
  | _, _ => []

/-- Relation between the accumulated prefix `c` and what the final loop of
`CommonPrefix` makes of it: `c` itself when `c` has no byte `sep`, otherwise
the part of `c` before its last byte `sep`. -/
def Trimmed (sep : Nat) (c r : List Nat) : Prop :=
  (sep ∉ c ∧ r = c) ∨ ∃ tail, c = r ++ sep :: tail ∧ sep ∉ tail

/-- One entry of a walk: its path, its name, whether it is a directory, and
the names of the directories of the walk that contain it, from the root of
the walk down. -/
structure WalkItem where
  path : List Nat
  name : List Nat
  isDir : Bool
  dirs : List (List Nat)

mutual

/-- The entries found at `path` and below, in the order of the walk, each
with the directories `dirs` that contain it; an entry whose `lstat` fails is
not listed. -/
def Entry.items (path : List Nat) (dirs : List (List Nat)) : Entry → List WalkItem
  | .lstatError _ _ => []
  | .file name => [⟨path, name, false, dirs⟩]
  | .unreadableDir name _ => [⟨path, name, true, dirs⟩]
  | .dir name entries => ⟨path, name, true, dirs⟩ :: entries.items path (dirs ++ [name])

/-- The entries found in the directory `path` and below, in the order of the
walk. -/
def Entries.items (path : List Nat) (dirs : List (List Nat)) : Entries → List WalkItem
  | .nil => []
  | .cons e rest => e.items (filepath.Join [path, e.name]) dirs ++ rest.items path dirs

end

/-- The paths of the entries that are not directories, whose name satisfies
`isStarlarkFile`, and that lie in no directory named `.git`. -/
def starlarkPaths (items : List WalkItem) : List (List Nat) :=
  (items.filter fun it =>
    !it.isDir && isStarlarkFile it.name && decide (lit ".git" ∉ it.dirs)).map fun it => it.path

/-- The error with which the stat or the walk of one argument of
`ExpandDirectories` fails, `none` if neither fails. -/
def argError (fs : FileSystem) (arg : List Nat) : Option Err :=
  match fs.Stat arg with
  | .error err => some err
  | .ok info =>
    if !info.IsDir then none
    else
      match filepath.Walk expandWalkFn arg (fs.Found arg) [] with
      | none => none
      | some (_, err) => err

/-- An example of what a walk finds: a directory `repo` with a directory
`.git` (holding a file `BUILD`), the files `BUILD` and `README.md`, and a
directory `pkg` with the files `defs.bzl` and `notes.txt`. -/
def sampleFound : Entry :=
  .dir (lit "repo")
    (.cons (.dir (lit ".git") (.cons (.file (lit "BUILD")) .nil))
    (.cons (.file (lit "BUILD"))
    (.cons (.file (lit "README.md"))
    (.cons (.dir (lit "pkg")
      (.cons (.file (lit "defs.bzl")) (.cons (.file (lit "notes.txt")) .nil)))
    .nil))))

/-- An example of a file system: `repo` is the directory `sampleFound`,
`broken` is a directory with a subdirectory that cannot be read, `missing`
does not exist, and every other path is a file. -/
def sampleFs : FileSystem where
  Stat := fun p =>
    if p = lit "repo" ∨ p = lit "broken" then .ok ⟨p, true⟩
    else if p = lit "missing" then .error (Err.fsError 2)
    else .ok ⟨p, false⟩
  Found := fun p =>
    if p = lit "repo" then sampleFound
    else if p = lit "broken" then
      .dir (lit "broken") (.cons (.unreadableDir (lit "sub") (Err.fsError 13)) .nil)
    else if p = lit "missing" then .lstatError p (Err.fsError 2)
    else .file p

/-! ## The loops of `CommonPrefix` -/

theorem lcp_nil_right (v : List Nat) : lcp v [] = [] := by
  cases v <;> rfl

theorem lcp_prefix_left : ∀ v c : List Nat, lcp v c <+: v
  | [], c => by cases c <;> simp [lcp]
  | _ :: _, [] => by simp [lcp]
  | a :: v, b :: c => by
    by_cases h : a = b
    · subst h
      simp [lcp, lcp_prefix_left v c]
    · simp [lcp, h]

theorem lcp_prefix_right : ∀ v c : List Nat, lcp v c <+: c
  | [], c => by cases c <;> simp [lcp]
  | _ :: _, [] => by simp [lcp]
  | a :: v, b :: c => by
    by_cases h : a = b
    · simp [lcp, h, lcp_prefix_right v c]
    · simp [lcp, h]

theorem prefix_lcp : ∀ d v c : List Nat, d <+: v → d <+: c → d <+: lcp v c
  | [], _, _, _, _ => List.nil_prefix
  | x :: d, [], _, hv, _ => by simp at hv
  | x :: d, _ :: _, [], _, hc => by simp at hc
  | x :: d, a :: v, b :: c, hv, hc => by
    rw [List.cons_prefix_cons] at hv hc
    obtain ⟨rfl, hv⟩ := hv
    obtain ⟨rfl, hc⟩ := hc
    simp [lcp, prefix_lcp d v c hv hc]

theorem lcp_append_left : ∀ x y z : List Nat, lcp (x ++ y) (x ++ z) = x ++ lcp y z
  | [], _, _ => rfl
  | a :: x, y, z => by simp [lcp, lcp_append_left x y z]

theorem lcp_take_right : ∀ (v c : List Nat) (n : Nat), v.length ≤ n →
    lcp v (c.take n) = lcp v c
  | [], c, n, _ => by cases c <;> cases n <;> simp [lcp]
  | a :: v, [], n, _ => by simp
  | a :: v, b :: c, 0, h => by simp at h
  | a :: v, b :: c, n + 1, h => by
    have h1 : v.length ≤ n := by simpa using h
    simp [lcp, lcp_take_right v c n h1]

/-- If the byte `sep` occurs in the longest common prefix of two sequences,
their parts before the first `sep` agree. -/
theorem takeWhile_eq_of_mem_lcp (sep : Nat) : ∀ x y : List Nat, sep ∈ lcp x y →
    x.takeWhile (fun b => b != sep) = y.takeWhile (fun b => b != sep)
  | [], y, h => by cases y <;> simp [lcp] at h
  | _ :: _, [], h => by simp [lcp] at h
  | a :: x, b :: y, h => by
    by_cases hab : a = b
    · subst hab
      by_cases hs : a = sep
      · simp [List.takeWhile, hs]
      · have hne : (a != sep) = true := by simpa using hs
        have h1 : sep ∈ lcp x y := by
          simp only [lcp, if_true, List.mem_cons] at h
          rcases h with h | h
          · exact absurd h.symm hs
          · exact h
        simp [List.takeWhile, hne, takeWhile_eq_of_mem_lcp sep x y h1]
    · simp [lcp, hab] at h

theorem takeWhile_append_sentinel (sep : Nat) (t : List Nat) :
    (t ++ [sep]).takeWhile (fun b => b != sep) = t.takeWhile (fun b => b != sep) := by
  induction t with
  | nil => simp [List.takeWhile]
  | cons a t ih =>
    by_cases hs : a = sep
    · simp [List.takeWhile, hs]
    · have hne : (a != sep) = true := by simpa using hs
      simp [List.takeWhile, hne, ih]

theorem takeWhile_of_not_mem (sep : Nat) (t : List Nat) (h : sep ∉ t) :
    t.takeWhile (fun b => b != sep) = t := by
  induction t with
  | nil => rfl
  | cons a t ih =>
    have ha : a ≠ sep := fun e => h (by simp [e])
    have ht : sep ∉ t := fun e => h (by simp [e])
    have hne : (a != sep) = true := by simpa using ha
    simp [List.takeWhile, hne, ih ht]

/-- The comparison loop started at index `i` leaves the first `i` bytes of `c`
followed by the longest common prefix of the rest; it does not panic when `c`
is not longer than `v`. -/
theorem compareLoop_eq (v u : List Nat) (hlen : u.length ≤ v.length) :
    ∀ (n i : Nat), i + n = u.length →
      compareLoop v u (List.range' i n) = some (u.take i ++ lcp (v.drop i) (u.drop i))
  | 0, i, h => by
    have hi : i = u.length := by omega
    subst hi
    simp [compareLoop, lcp_nil_right]
  | n + 1, i, h => by
    have hiu : i < u.length := by omega
    have hiv : i < v.length := by omega
    rw [List.range'_succ, compareLoop]
    simp only [index, List.getElem?_eq_getElem hiu, List.getElem?_eq_getElem hiv]
    rw [List.drop_eq_getElem_cons hiv, List.drop_eq_getElem_cons hiu]
    by_cases hab : v[i] = u[i]
    · have htake : u.take (i + 1) = u.take i ++ [u[i]] := by
        rw [List.take_succ, List.getElem?_eq_getElem hiu]
        rfl
      rw [if_neg (not_not.2 hab), compareLoop_eq v u hlen n (i + 1) (by omega),
        lcp, if_pos hab, hab, htake, List.append_assoc]
      rfl
    · rw [if_pos hab, lcp, if_neg hab, sliceTo, if_pos (Nat.le_of_lt hiu)]
      simp

/-- One iteration of the loop over the paths computes the longest common
prefix of `v` and `c`, and never panics. -/
theorem truncateTo_eq (v c : List Nat) : truncateTo v c = some (lcp v c) := by
  unfold truncateTo
  by_cases h : v.length < c.length
  · have h1 : (c.take v.length).length ≤ v.length := by simp
    simp only [if_pos h, sliceTo, if_pos (Nat.le_of_lt h), Option.some_bind]
    rw [compareLoop_eq v _ h1 _ 0 (by simp)]
    simp [lcp_take_right]
  · simp only [if_neg h, Option.some_bind]
    rw [compareLoop_eq v c (by omega) _ 0 (by simp)]
    simp

theorem foldlM_some (g : List Nat → List Nat → List Nat) :
    ∀ (rest : List (List Nat)) (u : List Nat),
      rest.foldlM (fun u v => some (g u v)) u = some (rest.foldl g u)
  | [], _ => rfl
  | v :: rest, u => by
    rw [List.foldlM_cons, List.foldl_cons]
    exact foldlM_some g rest (g u v)

theorem foldlM_truncateTo (f : List Nat → List Nat) (rest : List (List Nat)) (u : List Nat) :
    rest.foldlM (fun c v => truncateTo (f v) c) u
      = some (rest.foldl (fun c v => lcp (f v) c) u) := by
  have hf : (fun c v => truncateTo (f v) c) = fun c v => some (lcp (f v) c) := by
    funext c v
    exact truncateTo_eq _ _
  rw [hf]
  exact foldlM_some (fun c v => lcp (f v) c) rest u

theorem foldl_lcp_prefix_init (f : List Nat → List Nat) : ∀ (rest : List (List Nat)) (c : List Nat),
    rest.foldl (fun c v => lcp (f v) c) c <+: c
  | [], _ => List.prefix_rfl
  | v :: rest, c =>
    (foldl_lcp_prefix_init f rest _).trans (lcp_prefix_right (f v) c)

theorem foldl_lcp_prefix_mem (f : List Nat → List Nat) : ∀ (rest : List (List Nat)) (c : List Nat),
    ∀ v ∈ rest, rest.foldl (fun c v => lcp (f v) c) c <+: f v
  | [], _, v, hv => by simp at hv
  | w :: rest, c, v, hv => by
    rcases List.mem_cons.1 hv with rfl | hv
    · exact (foldl_lcp_prefix_init f rest _).trans (lcp_prefix_left (f v) c)
    · exact foldl_lcp_prefix_mem f rest _ v hv

theorem prefix_foldl_lcp (f : List Nat → List Nat) (d : List Nat) :
    ∀ (rest : List (List Nat)) (c : List Nat), d <+: c → (∀ v ∈ rest, d <+: f v) →
      d <+: rest.foldl (fun c v => lcp (f v) c) c
  | [], c, hc, _ => hc
  | w :: rest, c, hc, h =>
    prefix_foldl_lcp f d rest _ (prefix_lcp d (f w) c (h w (by simp)) hc)
      (fun v hv => h v (by simp [hv]))

/-- The final loop, started with `n` indices to visit, returns a result that
is related to the first `n` bytes of `c` as `Trimmed` says. -/
theorem trimLoop_spec (sep : Nat) (u : List Nat) : ∀ n, n ≤ u.length →
    (trimLoop sep u n = some u ∧ sep ∉ u.take n) ∨
      ∃ r tail, trimLoop sep u n = some r ∧ r <+: u ∧ u.take n = r ++ sep :: tail ∧ sep ∉ tail
  | 0, _ => by simp [trimLoop]
  | n + 1, h => by
    have hn : n < u.length := by omega
    have htake : u.take (n + 1) = u.take n ++ [u[n]] := by
      rw [List.take_succ, List.getElem?_eq_getElem hn]
      rfl
    rw [trimLoop]
    simp only [index, List.getElem?_eq_getElem hn]
    by_cases hb : u[n] = sep
    · right
      refine ⟨u.take n, [], ?_, List.take_prefix _ _, ?_, by simp⟩
      · rw [if_pos hb, sliceTo, if_pos (Nat.le_of_lt hn)]
      · rw [htake, hb]
    · rw [if_neg hb]
      rcases trimLoop_spec sep u n (Nat.le_of_lt hn) with ⟨h1, h2⟩ | ⟨r, tail, h1, h2, h3, h4⟩
      · left
        refine ⟨h1, ?_⟩
        rw [htake, List.mem_append, List.mem_singleton]
        exact fun e => e.elim h2 (fun e => hb e.symm)
      · right
        refine ⟨r, tail ++ [u[n]], h1, h2, ?_, ?_⟩
        · rw [htake, h3, List.append_assoc]
          rfl
        · rw [List.mem_append, List.mem_singleton]
          exact fun e => e.elim h4 (fun e => hb e.symm)

theorem trimLoop_trimmed (sep : Nat) (u : List Nat) :
    ∃ r, trimLoop sep u u.length = some r ∧ Trimmed sep u r := by
  rcases trimLoop_spec sep u u.length (Nat.le_refl _) with ⟨h1, h2⟩ | ⟨r, tail, h1, _, h3, h4⟩
  · exact ⟨u, h1, Or.inl ⟨by simpa using h2, rfl⟩⟩
  · exact ⟨r, h1, Or.inr ⟨tail, by simpa using h3, h4⟩⟩

/-! ## What `CommonPrefix` computes -/

theorem byteToString_ascii (sep : Nat) (h : sep < 128) : byteToString sep = [sep] := by
  simp [byteToString, encodeRune, h]

/-- On two or more paths `CommonPrefix` does not panic, and its result is
obtained by the final trimming from the longest common prefix of the cleaned
paths with their sentinels. -/
theorem CommonPrefix_cons_cons (Clean : List Nat → List Nat) (sep : Nat)
    (p0 p1 : List Nat) (rest : List (List Nat)) :
    ∃ r, CommonPrefix Clean sep (p0 :: p1 :: rest) = some r ∧
      Trimmed sep ((p1 :: rest).foldl (fun c v => lcp (Clean v ++ byteToString sep) c)
        (Clean p0 ++ [sep])) r := by
  obtain ⟨r, h1, h2⟩ := trimLoop_trimmed sep
    ((p1 :: rest).foldl (fun c v => lcp (Clean v ++ byteToString sep) c) (Clean p0 ++ [sep]))
  refine ⟨r, ?_, h2⟩
  rw [CommonPrefix, foldlM_truncateTo, Option.some_bind]
  exact h1

/-- With an ASCII separator, the accumulated prefix is the longest common
prefix of all the cleaned paths followed by the separator. -/
theorem CommonPrefix_ascii (Clean : List Nat → List Nat) (sep : Nat) (hsep : sep < 128)
    (p0 p1 : List Nat) (rest : List (List Nat)) :
    ∃ r acc, CommonPrefix Clean sep (p0 :: p1 :: rest) = some r ∧ Trimmed sep acc r ∧
      (∀ p ∈ p0 :: p1 :: rest, acc <+: Clean p ++ [sep]) ∧
      (∀ d, (∀ p ∈ p0 :: p1 :: rest, d <+: Clean p ++ [sep]) → d <+: acc) := by
  obtain ⟨r, h1, h2⟩ := CommonPrefix_cons_cons Clean sep p0 p1 rest
  rw [byteToString_ascii sep hsep] at h2
  refine ⟨r, _, h1, h2, ?_, ?_⟩
  · intro p hp
    rcases List.mem_cons.1 hp with rfl | hp
    · exact foldl_lcp_prefix_init (fun v => Clean v ++ [sep]) (p1 :: rest) _
    · exact foldl_lcp_prefix_mem (fun v => Clean v ++ [sep]) (p1 :: rest) _ p hp
  · intro d hd
    exact prefix_foldl_lcp (fun v => Clean v ++ [sep]) d (p1 :: rest) _
      (hd p0 (by simp)) (fun v hv => hd v (List.mem_cons_of_mem _ hv))

theorem concat_prefix_elim {r q : List Nat} {sep : Nat} (h : r ++ [sep] <+: q) :
    r <+: q ∧ r.length < q.length ∧ q[r.length]? = some sep := by
  obtain ⟨t, rfl⟩ := h
  refine ⟨⟨sep :: t, by simp⟩, by simp, ?_⟩
  rw [List.append_assoc, List.getElem?_append_right (Nat.le_refl _)]
  simp

/-- A trimmed result against one cleaned path `q`: it has no separator and is
a prefix of `q`, or it is `q`, or it is followed by the separator in `q`. -/
theorem Trimmed.cases_of_prefix {sep : Nat} {acc r q : List Nat} (ht : Trimmed sep acc r)
    (hp : acc <+: q ++ [sep]) :
    (sep ∉ r ∧ r <+: q) ∨ r = q ∨ r ++ [sep] <+: q := by
  rcases ht with ⟨hno, rfl⟩ | ⟨tail, rfl, _⟩
  · rcases List.prefix_concat_iff.1 hp with h | h
    · exact absurd (by simp [h]) hno
    · exact Or.inl ⟨hno, h⟩
  · have h1 : r ++ [sep] <+: q ++ [sep] :=
      List.IsPrefix.trans ⟨tail, by simp⟩ hp
    rcases List.prefix_concat_iff.1 h1 with h | h
    · exact Or.inr (Or.inl (List.append_inj_left' h rfl))
    · exact Or.inr (Or.inr h)

/-- The part before the last separator is unique. -/
theorem eq_of_append_sep_eq {sep : Nat} : ∀ {r d t1 t2 : List Nat},
    r ++ sep :: t1 = d ++ sep :: t2 → sep ∉ t1 → sep ∉ t2 → r = d
  | [], [], _, _, _, _, _ => rfl
  | [], y :: d, t1, t2, h, h1, _ => by
    simp only [List.nil_append, List.cons_append, List.cons.injEq] at h
    exact absurd (by rw [h.2]; simp) h1
  | x :: r, [], t1, t2, h, _, h2 => by
    simp only [List.nil_append, List.cons_append, List.cons.injEq] at h
    exact absurd (by rw [← h.2]; simp) h2
  | x :: r, y :: d, t1, t2, h, h1, h2 => by
    simp only [List.cons_append, List.cons.injEq] at h
    rw [h.1, eq_of_append_sep_eq h.2 h1 h2]

theorem Trimmed.eq_of_last {sep : Nat} {d l r : List Nat} (ht : Trimmed sep (d ++ sep :: l) r)
    (hl : sep ∉ l) : r = d := by
  rcases ht with ⟨hno, _⟩ | ⟨tail, h, htail⟩
  · exact absurd (by simp) hno
  · exact eq_of_append_sep_eq h.symm htail hl

/-- Two cleaned paths that share `d` followed by the separator and then go on
with different segments have the common prefix `d`. -/
theorem CommonPrefix_fork (Clean : List Nat → List Nat) (sep : Nat) (hsep : sep < 128)
    (p1 p2 d t1 t2 : List Nat) (h1 : Clean p1 = d ++ sep :: t1) (h2 : Clean p2 = d ++ sep :: t2)
    (hseg : t1.takeWhile (fun b => b != sep) ≠ t2.takeWhile (fun b => b != sep)) :
    CommonPrefix Clean sep [p1, p2] = some d := by
  obtain ⟨r, hr, ht⟩ := CommonPrefix_cons_cons Clean sep p1 p2 []
  rw [byteToString_ascii sep hsep] at ht
  have hacc : lcp (Clean p2 ++ [sep]) (Clean p1 ++ [sep])
      = d ++ sep :: lcp (t2 ++ [sep]) (t1 ++ [sep]) := by
    rw [h1, h2, List.append_assoc, List.append_assoc, lcp_append_left]
    simp [lcp]
  have hno : sep ∉ lcp (t2 ++ [sep]) (t1 ++ [sep]) := by
    intro hmem
    have := takeWhile_eq_of_mem_lcp sep _ _ hmem
    rw [takeWhile_append_sentinel, takeWhile_append_sentinel] at this
    exact hseg this.symm
  simp only [List.foldl_cons, List.foldl_nil] at ht
  rw [hacc] at ht
  rw [hr, ht.eq_of_last hno]

/-! ## `CommonPrefix`: the result and the input paths -/

/-- C1, as stated, fails: with separator `'/'` the paths `ab` and `ac` give
`a`, which is not empty, is not one of the cleaned paths, and is followed in
`ab` by the byte `b`, not by the separator. -/
theorem CommonPrefix_mid_segment :
    ∃ r, CommonPrefix filepath.Clean 47 [lit "ab", lit "ac"] = some r ∧
      ¬ ∀ p ∈ [lit "ab", lit "ac"],
        r = [] ∨ r = filepath.Clean p ∨
          (r <+: filepath.Clean p ∧ r.length < (filepath.Clean p).length ∧
            (filepath.Clean p)[r.length]? = some 47) :=
  ⟨lit "a", by decide, by decide⟩

/-- C1 (amended): for an ASCII separator `sep` and two or more paths,
`CommonPrefix` returns a result `r` such that, for each input path `p`, `r`
contains no byte `sep`, or `r` is `Clean p`, or `r` is a proper prefix of
`Clean p` and the byte of `Clean p` right after `r` is `sep`. -/
theorem CommonPrefix_segment_boundary (Clean : List Nat → List Nat) (sep : Nat)
    (paths : List (List Nat)) (hsep : sep < 128) (hlen : 2 ≤ paths.length) :
    ∃ r, CommonPrefix Clean sep paths = some r ∧
      ∀ p ∈ paths, sep ∉ r ∨ r = Clean p ∨
        (r <+: Clean p ∧ r.length < (Clean p).length ∧ (Clean p)[r.length]? = some sep) := by
  match paths, hlen with
  | p0 :: p1 :: rest, _ =>
    obtain ⟨r, acc, hr, ht, hpre, _⟩ := CommonPrefix_ascii Clean sep hsep p0 p1 rest
    refine ⟨r, hr, fun p hp => ?_⟩
    rcases ht.cases_of_prefix (hpre p hp) with h | h | h
    · exact Or.inl h.1
    · exact Or.inr (Or.inl h)
    · exact Or.inr (Or.inr (concat_prefix_elim h))

theorem CommonPrefix_segment_boundary_witness :
    (47 < 128 ∧ 2 ≤ [lit "/src/main/java", lit "/src/./main/java2/"].length) ∧
    ∃ r, CommonPrefix filepath.Clean 47 [lit "/src/main/java", lit "/src/./main/java2/"] = some r ∧
      ∀ p ∈ [lit "/src/main/java", lit "/src/./main/java2/"],
        47 ∉ r ∨ r = filepath.Clean p ∨
          (r <+: filepath.Clean p ∧ r.length < (filepath.Clean p).length ∧
            (filepath.Clean p)[r.length]? = some 47) :=
  ⟨by decide, CommonPrefix_segment_boundary filepath.Clean 47
    [lit "/src/main/java", lit "/src/./main/java2/"] (by decide) (by decide)⟩

/-- C2: for an ASCII separator `sep` and a non-empty list of paths,
`CommonPrefix` returns a result that is a byte-prefix of `Clean p` for every
path `p` of the list. -/
theorem CommonPrefix_shared (Clean : List Nat → List Nat) (sep : Nat)
    (paths : List (List Nat)) (hsep : sep < 128) (hne : paths ≠ []) :
    ∃ r, CommonPrefix Clean sep paths = some r ∧ ∀ p ∈ paths, r <+: Clean p := by
  match paths, hne with
  | [p0], _ =>
    refine ⟨Clean p0, rfl, fun p hp => ?_⟩
    rw [List.mem_singleton.1 hp]
  | p0 :: p1 :: rest, _ =>
    obtain ⟨r, acc, hr, ht, hpre, _⟩ := CommonPrefix_ascii Clean sep hsep p0 p1 rest
    refine ⟨r, hr, fun p hp => ?_⟩
    rcases ht.cases_of_prefix (hpre p hp) with h | h | h
    · exact h.2
    · rw [h]
    · exact (concat_prefix_elim h).1

theorem CommonPrefix_shared_witness :
    (47 < 128 ∧ [lit "/home/user1", lit "/home/user1/foo", lit "/home//user1/bar"] ≠ []) ∧
    ∃ r, CommonPrefix filepath.Clean 47
        [lit "/home/user1", lit "/home/user1/foo", lit "/home//user1/bar"] = some r ∧
      ∀ p ∈ [lit "/home/user1", lit "/home/user1/foo", lit "/home//user1/bar"],
        r <+: filepath.Clean p :=
  ⟨by decide, CommonPrefix_shared filepath.Clean 47
    [lit "/home/user1", lit "/home/user1/foo", lit "/home//user1/bar"] (by decide) (by decide)⟩

/-- C3: for an ASCII separator `sep`, a non-empty list of paths and any `d`
such that `d` followed by `sep` is a byte-prefix of `Clean p` followed by
`sep` for every path `p` of the list, `CommonPrefix` returns a result of which
`d` is a byte-prefix. -/
theorem CommonPrefix_longest (Clean : List Nat → List Nat) (sep : Nat)
    (paths : List (List Nat)) (d : List Nat) (hsep : sep < 128) (hne : paths ≠ [])
    (hd : ∀ p ∈ paths, d ++ [sep] <+: Clean p ++ [sep]) :
    ∃ r, CommonPrefix Clean sep paths = some r ∧ d <+: r := by
  match paths, hne, hd with
  | [p0], _, hd =>
    refine ⟨Clean p0, rfl, ?_⟩
    rcases List.prefix_concat_iff.1 (hd p0 (by simp)) with h | h
    · rw [List.append_inj_left' h rfl]
    · exact (concat_prefix_elim h).1
  | p0 :: p1 :: rest, _, hd =>
    obtain ⟨r, acc, hr, ht, _, hmax⟩ := CommonPrefix_ascii Clean sep hsep p0 p1 rest
    refine ⟨r, hr, ?_⟩
    have hdacc : d ++ [sep] <+: acc := hmax _ hd
    rcases ht with ⟨hno, _⟩ | ⟨tail, rfl, htail⟩
    · exact absurd (hdacc.mem (by simp)) hno
    · have hd1 : d <+: r ++ sep :: tail := List.IsPrefix.trans ⟨[sep], rfl⟩ hdacc
      have hr1 : r ++ [sep] <+: r ++ sep :: tail := ⟨tail, by simp⟩
      rcases Nat.lt_or_ge r.length d.length with hlt | hge
      · exfalso
        have h2 : r ++ [sep] <+: d :=
          List.prefix_of_prefix_length_le hr1 hd1 (by simpa using hlt)
        obtain ⟨t, rfl⟩ := h2
        have h3 : r ++ (sep :: (t ++ [sep])) <+: r ++ (sep :: tail) := by
          simpa using hdacc
        rw [List.prefix_append_right_inj, List.cons_prefix_cons] at h3
        exact htail (h3.2.mem (by simp))
      · exact List.prefix_of_prefix_length_le hd1 ⟨sep :: tail, rfl⟩ hge

theorem CommonPrefix_longest_witness :
    (47 < 128 ∧ [lit "/src/main/java", lit "/src/main/java2"] ≠ [] ∧
      ∀ p ∈ [lit "/src/main/java", lit "/src/main/java2"],
        lit "/src" ++ [47] <+: filepath.Clean p ++ [47]) ∧
    ∃ r, CommonPrefix filepath.Clean 47 [lit "/src/main/java", lit "/src/main/java2"] = some r ∧
      lit "/src" <+: r :=
  ⟨by decide, CommonPrefix_longest filepath.Clean 47
    [lit "/src/main/java", lit "/src/main/java2"] (lit "/src") (by decide) (by decide)
    (by decide)⟩

/-- C4 fails on the code for a separator byte above 0x7F: with `sep = 0x80`
and the path made of the two bytes `C3 80` given twice, which `Clean` leaves
unchanged, `CommonPrefix` returns the single byte `C3`, because the sentinel
appended to the second path is `string(sep)`, the two bytes `C2 80`. -/
theorem CommonPrefix_duplicate_high_sep :
    byteToString 128 = [194, 128] ∧
    filepath.Clean [195, 128] = [195, 128] ∧
    CommonPrefix filepath.Clean 128 [[195, 128], [195, 128]] = some [195] := by
  decide

/-- With an ASCII separator, a path given twice gives its cleaned form. -/
theorem CommonPrefix_duplicate_ascii (Clean : List Nat → List Nat) (sep : Nat)
    (p : List Nat) (hsep : sep < 128) :
    CommonPrefix Clean sep [p, p] = some (Clean p) := by
  obtain ⟨r, hr, ht⟩ := CommonPrefix_cons_cons Clean sep p p []
  rw [byteToString_ascii sep hsep] at ht
  simp only [List.foldl_cons, List.foldl_nil] at ht
  have hself : lcp (Clean p ++ [sep]) (Clean p ++ [sep]) = Clean p ++ [sep] := by
    have := lcp_append_left (Clean p ++ [sep]) [] []
    simpa [lcp] using this
  rw [hself] at ht
  rw [hr, ht.eq_of_last (by simp)]

/-- C5: for an ASCII separator `sep`, any `d` and two distinct names `a` and
`b` that do not contain `sep`, with `d+sep+a` and `d+sep+b` left unchanged by
`Clean`, `CommonPrefix` of the two paths is `d`; this holds also when one name
is a byte-prefix of the other (and whether or not the names are empty). -/
theorem CommonPrefix_siblings (Clean : List Nat → List Nat) (sep : Nat) (d a b : List Nat)
    (hsep : sep < 128) (hab : a ≠ b) (ha : sep ∉ a) (hb : sep ∉ b)
    (hca : Clean (d ++ [sep] ++ a) = d ++ [sep] ++ a)
    (hcb : Clean (d ++ [sep] ++ b) = d ++ [sep] ++ b) :
    CommonPrefix Clean sep [d ++ [sep] ++ a, d ++ [sep] ++ b] = some d := by
  refine CommonPrefix_fork Clean sep hsep _ _ d a b (by simpa using hca) (by simpa using hcb) ?_
  rw [takeWhile_of_not_mem sep a ha, takeWhile_of_not_mem sep b hb]
  exact hab

theorem CommonPrefix_siblings_witness :
    (47 < 128 ∧ lit "java" ≠ lit "java2" ∧ 47 ∉ lit "java" ∧ 47 ∉ lit "java2" ∧
      filepath.Clean (lit "/src/main" ++ [47] ++ lit "java")
        = lit "/src/main" ++ [47] ++ lit "java" ∧
      filepath.Clean (lit "/src/main" ++ [47] ++ lit "java2")
        = lit "/src/main" ++ [47] ++ lit "java2") ∧
    CommonPrefix filepath.Clean 47
      [lit "/src/main" ++ [47] ++ lit "java", lit "/src/main" ++ [47] ++ lit "java2"]
      = some (lit "/src/main") :=
  ⟨by decide, CommonPrefix_siblings filepath.Clean 47 (lit "/src/main") (lit "java")
    (lit "java2") (by decide) (by decide) (by decide) (by decide) (by decide) (by decide)⟩

/-- C6: for an ASCII separator `sep` and two paths left unchanged by `Clean`
that both begin with `sep` and whose first segments (the bytes between the
leading `sep` and the next `sep` or the end) differ, `CommonPrefix` is the
empty string; this holds also when one first segment is a byte-prefix of the
other. -/
theorem CommonPrefix_disjoint (Clean : List Nat → List Nat) (sep : Nat) (t1 t2 : List Nat)
    (hsep : sep < 128) (hc1 : Clean (sep :: t1) = sep :: t1)
    (hc2 : Clean (sep :: t2) = sep :: t2)
    (hseg : t1.takeWhile (fun b => b != sep) ≠ t2.takeWhile (fun b => b != sep)) :
    CommonPrefix Clean sep [sep :: t1, sep :: t2] = some [] :=
  CommonPrefix_fork Clean sep hsep _ _ [] t1 t2 hc1 hc2 hseg

theorem CommonPrefix_disjoint_witness :
    (47 < 128 ∧ filepath.Clean (47 :: lit "src/main/java") = 47 :: lit "src/main/java" ∧
      filepath.Clean (47 :: lit "src2/main/java") = 47 :: lit "src2/main/java" ∧
      (lit "src/main/java").takeWhile (fun b => b != 47)
        ≠ (lit "src2/main/java").takeWhile (fun b => b != 47)) ∧
    CommonPrefix filepath.Clean 47 [47 :: lit "src/main/java", 47 :: lit "src2/main/java"]
      = some [] :=
  ⟨by decide, CommonPrefix_disjoint filepath.Clean 47 (lit "src/main/java")
    (lit "src2/main/java") (by decide) (by decide) (by decide) (by decide)⟩

/-! ## `isStarlarkFile` -/

theorem HasPrefix_iff (s pre : List Nat) : strings.HasPrefix s pre = true ↔ pre <+: s := by
  unfold strings.HasPrefix
  rw [Bool.and_eq_true, decide_eq_true_iff, beq_iff_eq, List.prefix_iff_eq_take]
  constructor
  · exact fun h => h.2.symm
  · intro h
    refine ⟨?_, h.symm⟩
    have := congrArg List.length h
    rw [List.length_take] at this
    omega

/-- The extension loop, started anywhere after a dot that is followed by
bytes that are neither dots nor separators, finds that dot. -/
theorem extLoop_after_dot (pre rest : List Nat) (h : ∀ b ∈ rest, b ≠ 46 ∧ b ≠ 47) :
    ∀ k, k ≤ rest.length →
      filepath.extLoop (pre ++ 46 :: rest) (pre.length + 1 + k) = 46 :: rest
  | 0, _ => by
    rw [Nat.add_zero, filepath.extLoop, List.getElem?_append_right (Nat.le_refl _)]
    simp [os.IsPathSeparator, os.PathSeparator]
  | k + 1, hk => by
    have hk1 : k < rest.length := hk
    have hget : (pre ++ 46 :: rest)[pre.length + 1 + k]? = some rest[k] := by
      rw [List.getElem?_append_right (by omega)]
      have : pre.length + 1 + k - pre.length = k + 1 := by omega
      rw [this, List.getElem?_cons_succ, List.getElem?_eq_getElem hk1]
    have hb := h rest[k] (List.getElem_mem hk1)
    rw [← Nat.add_assoc, filepath.extLoop, hget]
    simp only [os.IsPathSeparator, os.PathSeparator, beq_iff_eq, hb.2, if_false, hb.1]
    exact extLoop_after_dot pre rest h k (Nat.le_of_lt hk1)

theorem Ext_after_dot (pre rest : List Nat) (h : ∀ b ∈ rest, b ≠ 46 ∧ b ≠ 47) :
    filepath.Ext (pre ++ 46 :: rest) = 46 :: rest := by
  have hlen : (pre ++ 46 :: rest).length = pre.length + 1 + rest.length := by
    rw [List.length_append, List.length_cons]
    omega
  rw [filepath.Ext, hlen]
  exact extLoop_after_dot pre rest h rest.length (Nat.le_refl _)

/-- C7: for every name whose extension is `.bazel` or `.oss`,
`isStarlarkFile` returns true if and only if the name starts with `BUILD.`,
`WORKSPACE.` or `MODULE.`. -/
theorem isStarlarkFile_bazel_oss (name : List Nat)
    (hext : filepath.Ext name = lit ".bazel" ∨ filepath.Ext name = lit ".oss") :
    isStarlarkFile name = true ↔
      (lit "BUILD." <+: name ∨ lit "WORKSPACE." <+: name ∨ lit "MODULE." <+: name) := by
  have h1 : ¬ (filepath.Ext name = lit ".bzl" ∨ filepath.Ext name = lit ".sky" ∨
      filepath.Ext name = lit ".star") := by
    rcases hext with h | h <;> rw [h] <;> decide
  unfold isStarlarkFile
  simp only [if_neg h1, if_pos hext, Bool.or_eq_true, HasPrefix_iff]
  exact or_assoc

theorem isStarlarkFile_bazel_oss_witness :
    ((filepath.Ext (lit "BUILD.foo.bazel") = lit ".bazel" ∨
        filepath.Ext (lit "BUILD.foo.bazel") = lit ".oss") ∧
      (isStarlarkFile (lit "BUILD.foo.bazel") = true ↔
        (lit "BUILD." <+: lit "BUILD.foo.bazel" ∨ lit "WORKSPACE." <+: lit "BUILD.foo.bazel" ∨
          lit "MODULE." <+: lit "BUILD.foo.bazel"))) ∧
    isStarlarkFile (lit "BUILD.foo.bazel") = true ∧
    isStarlarkFile (lit "WORKSPACE.oss") = true ∧
    isStarlarkFile (lit "MODULE.bazel") = true ∧
    isStarlarkFile (lit "build.foo.bazel") = false ∧
    isStarlarkFile (lit "workspace.oss") = false :=
  ⟨⟨by decide, isStarlarkFile_bazel_oss (lit "BUILD.foo.bazel") (by decide)⟩,
    by decide, by decide, by decide, by decide, by decide⟩

/-- C8: for every name that ends with `.bzl`, `.sky` or `.star`,
`isStarlarkFile` returns true, whatever precedes the extension. -/
theorem isStarlarkFile_extension (name : List Nat)
    (hend : lit ".bzl" <:+ name ∨ lit ".sky" <:+ name ∨ lit ".star" <:+ name) :
    isStarlarkFile name = true := by
  have hext : filepath.Ext name = lit ".bzl" ∨ filepath.Ext name = lit ".sky" ∨
      filepath.Ext name = lit ".star" := by
    rcases hend with ⟨pre, rfl⟩ | ⟨pre, rfl⟩ | ⟨pre, rfl⟩
    · exact Or.inl (Ext_after_dot pre [98, 122, 108] (by decide))
    · exact Or.inr (Or.inl (Ext_after_dot pre [115, 107, 121] (by decide)))
    · exact Or.inr (Or.inr (Ext_after_dot pre [115, 116, 97, 114] (by decide)))
  unfold isStarlarkFile
  simp only [if_pos hext]

theorem isStarlarkFile_extension_witness :
    (lit ".bzl" <:+ lit "build.bzl" ∨ lit ".sky" <:+ lit "build.bzl" ∨
      lit ".star" <:+ lit "build.bzl") ∧
    isStarlarkFile (lit "build.bzl") = true :=
  ⟨by decide, isStarlarkFile_extension (lit "build.bzl") (by decide)⟩

/-- C9: for every name whose extension is none of `.bzl`, `.sky`, `.star`,
`.bazel`, `.oss`, `isStarlarkFile` returns true if and only if the name is
exactly `BUILD` or exactly `WORKSPACE`. -/
theorem isStarlarkFile_other (name : List Nat)
    (h1 : filepath.Ext name ≠ lit ".bzl") (h2 : filepath.Ext name ≠ lit ".sky")
    (h3 : filepath.Ext name ≠ lit ".star") (h4 : filepath.Ext name ≠ lit ".bazel")
    (h5 : filepath.Ext name ≠ lit ".oss") :
    isStarlarkFile name = true ↔ (name = lit "BUILD" ∨ name = lit "WORKSPACE") := by
  unfold isStarlarkFile
  simp only [h1, h2, h3, h4, h5, or_self, if_false, Bool.or_eq_true, beq_iff_eq]

theorem isStarlarkFile_other_witness :
    (filepath.Ext (lit "foo.BZL") ≠ lit ".bzl" ∧ filepath.Ext (lit "foo.BZL") ≠ lit ".sky" ∧
      filepath.Ext (lit "foo.BZL") ≠ lit ".star" ∧ filepath.Ext (lit "foo.BZL") ≠ lit ".bazel" ∧
      filepath.Ext (lit "foo.BZL") ≠ lit ".oss") ∧
    (isStarlarkFile (lit "foo.BZL") = true ↔
      (lit "foo.BZL" = lit "BUILD" ∨ lit "foo.BZL" = lit "WORKSPACE")) ∧
    isStarlarkFile (lit "foo.BZL") = false ∧
    isStarlarkFile (lit "BUILD") = true ∧
    isStarlarkFile (lit "WORKSPACE") = true ∧
    isStarlarkFile (lit "build") = false ∧
    isStarlarkFile (lit "MODULE") = false ∧
    isStarlarkFile (lit "BUILD.foo") = false ∧
    isStarlarkFile (lit "foo.build") = false ∧
    isStarlarkFile (lit "build.gradle") = false :=
  ⟨by decide,
    isStarlarkFile_other (lit "foo.BZL") (by decide) (by decide) (by decide) (by decide)
      (by decide),
    by decide, by decide, by decide, by decide, by decide, by decide, by decide, by decide⟩

/-! ## `GetParser` -/

/-- C10: `GetParser` maps `build` to `ParseBuild`, `bzl` to `ParseBzl`,
`workspace` to `ParseWorkspace`, `module` to `ParseModule`, `auto` to `Parse`,
and every other string, `default` and the empty string among them, to
`ParseDefault`. -/
theorem GetParser_mapping :
    GetParser (lit "build") = build.ParseFunc.ParseBuild ∧
    GetParser (lit "bzl") = build.ParseFunc.ParseBzl ∧
    GetParser (lit "workspace") = build.ParseFunc.ParseWorkspace ∧
    GetParser (lit "module") = build.ParseFunc.ParseModule ∧
    GetParser (lit "auto") = build.ParseFunc.Parse ∧
    GetParser (lit "default") = build.ParseFunc.ParseDefault ∧
    GetParser (lit "") = build.ParseFunc.ParseDefault ∧
    ∀ inputType : List Nat,
      inputType ≠ lit "build" → inputType ≠ lit "bzl" → inputType ≠ lit "workspace" →
      inputType ≠ lit "module" → inputType ≠ lit "auto" →
      GetParser inputType = build.ParseFunc.ParseDefault := by
  refine ⟨by decide, by decide, by decide, by decide, by decide, by decide, by decide, ?_⟩
  intro inputType h1 h2 h3 h4 h5
  unfold GetParser
  simp only [h1, h2, h3, h4, h5, if_false]

/-! ## `CommonPrefix`: the root, the sentinel, the order of the paths -/

theorem Trimmed.unique {sep : Nat} {acc r1 r2 : List Nat} (h1 : Trimmed sep acc r1)
    (h2 : Trimmed sep acc r2) : r1 = r2 := by
  rcases h1 with ⟨hno1, e1⟩ | ⟨t1, e1, ht1⟩
  · rcases h2 with ⟨_, e2⟩ | ⟨t2, e2, _⟩
    · rw [e1, e2]
    · exact absurd (by rw [e2]; simp) hno1
  · rcases h2 with ⟨hno2, _⟩ | ⟨t2, e2, ht2⟩
    · exact absurd (by rw [e1]; simp) hno2
    · exact eq_of_append_sep_eq (e1.symm.trans e2) ht1 ht2

theorem lcp_self : ∀ x : List Nat, lcp x x = x
  | [] => rfl
  | a :: x => by simp [lcp, lcp_self x]

/-- The longest common prefix of two separator-free sequences with their
sentinels: the sentinel is kept only when the sequences are equal. -/
theorem lcp_sentinel (sep : Nat) : ∀ x y : List Nat, sep ∉ x → sep ∉ y →
    lcp (x ++ [sep]) (y ++ [sep]) = if x = y then x ++ [sep] else lcp x y
  | [], [], _, _ => by simp [lcp]
  | [], b :: y, _, hy => by
    have hb : sep ≠ b := fun e => hy (by simp [e])
    simp [lcp, hb]
  | a :: x, [], hx, _ => by
    have ha : a ≠ sep := fun e => hx (by simp [e])
    simp [lcp, ha]
  | a :: x, b :: y, hx, hy => by
    have hx1 : sep ∉ x := fun e => hx (by simp [e])
    have hy1 : sep ∉ y := fun e => hy (by simp [e])
    by_cases hab : a = b
    · subst hab
      have ih := lcp_sentinel sep x y hx1 hy1
      by_cases hxy : x = y
      · subst hxy
        rw [if_pos rfl] at ih
        simp [lcp, ih]
      · rw [if_neg hxy] at ih
        simp [lcp, ih, hxy]
    · simp [lcp, hab]

/-- C15 fails on the code: with separator `'/'` the paths `/` and `/a`, the
first of which cleans to the root and the second of which is absolute, give
the empty string and not the root `/`, although the root is in the list: the
sentinel form `//` of the root is cut to `/` against `/a/` and then trimmed
at index 0.  For a directory other than the root the same shape of input
gives the directory: `/home` and `/home/a` give `/home`. -/
theorem CommonPrefix_slash_child_empty :
    filepath.Clean (lit "/") = lit "/" ∧ lit "/" <+: filepath.Clean (lit "/a") ∧
    CommonPrefix filepath.Clean 47 [lit "/", lit "/a"] = some [] ∧
    CommonPrefix filepath.Clean 47 [lit "/", lit "/a"] ≠ some (lit "/") ∧
    CommonPrefix filepath.Clean 47 [lit "/home", lit "/home/a"] = some (lit "/home") := by
  decide

/-- What the code computes at the root: with separator `'/'`, when the first
path cleans to `/` and every other path is absolute, the sentinel form `//`
of the root survives the comparisons, and is trimmed to `/`, only if every
other cleaned path, followed by the separator, begins with `//` (as it does
when it is `/` itself); otherwise the accumulated bytes are `/` and the
result is the empty string. -/
theorem CommonPrefix_root (Clean : List Nat → List Nat) (p0 p1 : List Nat)
    (rest : List (List Nat)) (h0 : Clean p0 = lit "/")
    (habs : ∀ p ∈ p1 :: rest, lit "/" <+: Clean p) :
    CommonPrefix Clean 47 (p0 :: p1 :: rest)
      = some (if ∀ p ∈ p1 :: rest, lit "//" <+: Clean p ++ [47] then lit "/" else []) := by
  have hl1 : lit "/" = [47] := by decide
  have hl2 : lit "//" = [47, 47] := by decide
  rw [hl1] at h0 habs
  rw [hl1, hl2]
  obtain ⟨r, acc, hr, ht, hpre, hmax⟩ :=
    CommonPrefix_ascii Clean 47 (by decide) p0 p1 rest
  have hacc0 : acc <+: [47, 47] := by
    have := hpre p0 (by simp)
    rwa [h0] at this
  have hone : [47] <+: acc := by
    refine hmax [47] fun p hp => ?_
    rcases List.mem_cons.1 hp with rfl | hp
    · rw [h0]
      exact ⟨[47], rfl⟩
    · exact (habs p hp).trans (List.prefix_append _ _)
  by_cases hall : ∀ p ∈ p1 :: rest, [47, 47] <+: Clean p ++ [47]
  · have htwo : [47, 47] <+: acc := by
      refine hmax [47, 47] fun p hp => ?_
      rcases List.mem_cons.1 hp with rfl | hp
      · rw [h0]
        exact List.prefix_rfl
      · exact hall p hp
    have hacc : acc = [47] ++ 47 :: [] :=
      List.IsPrefix.eq_of_length hacc0 (Nat.le_antisymm hacc0.length_le htwo.length_le)
    rw [hacc] at ht
    rw [if_pos hall, hr, ht.eq_of_last (by simp)]
  · have hnot : ¬ [47, 47] <+: acc := by
      intro h2
      exact hall fun p hp => h2.trans (hpre p (List.mem_cons_of_mem _ hp))
    have hacc : acc = [] ++ 47 :: [] := by
      have hlen1 : 1 ≤ acc.length := by simpa using hone.length_le
      have hlen2 : acc.length ≤ 2 := by simpa using hacc0.length_le
      rcases Nat.lt_or_ge acc.length 2 with hlt | hge
      · exact (List.IsPrefix.eq_of_length hone (by simp; omega)).symm
      · exact absurd (List.IsPrefix.eq_of_length hacc0 (by simp; omega) ▸ List.prefix_rfl) hnot
    rw [hacc] at ht
    rw [if_neg hall, hr, ht.eq_of_last (by simp)]

/-- C16: for an ASCII separator `sep` and a list of two or more paths that
`Clean` leaves unchanged, if the list contains a path `d` such that every path
of the list is `d` or starts with `d` followed by `sep`, then `CommonPrefix`
returns `d`, wherever `d` stands in the list. -/
theorem CommonPrefix_contains_dir (Clean : List Nat → List Nat) (sep : Nat)
    (paths : List (List Nat)) (d : List Nat) (hsep : sep < 128) (hlen : 2 ≤ paths.length)
    (hclean : ∀ p ∈ paths, Clean p = p) (hd : d ∈ paths)
    (hall : ∀ p ∈ paths, p = d ∨ d ++ [sep] <+: p) :
    CommonPrefix Clean sep paths = some d := by
  match paths, hlen, hclean, hd, hall with
  | p0 :: p1 :: rest, _, hclean, hd, hall =>
    obtain ⟨r, acc, hr, ht, hpre, hmax⟩ := CommonPrefix_ascii Clean sep hsep p0 p1 rest
    have h1 : acc <+: d ++ [sep] := by
      have := hpre d hd
      rwa [hclean d hd] at this
    have h2 : d ++ [sep] <+: acc := by
      refine hmax _ fun p hp => ?_
      rw [hclean p hp]
      rcases hall p hp with rfl | h
      · exact List.prefix_rfl
      · exact h.trans (List.prefix_append _ _)
    have hacc : acc = d ++ sep :: [] :=
      List.IsPrefix.eq_of_length h1 (Nat.le_antisymm h1.length_le h2.length_le)
    rw [hacc] at ht
    rw [hr, ht.eq_of_last (by simp)]

theorem CommonPrefix_contains_dir_witness :
    (47 < 128 ∧
      2 ≤ [lit "/home/user1/foo", lit "/home/user1", lit "/home/user1/bar"].length ∧
      (∀ p ∈ [lit "/home/user1/foo", lit "/home/user1", lit "/home/user1/bar"],
        filepath.Clean p = p) ∧
      lit "/home/user1" ∈ [lit "/home/user1/foo", lit "/home/user1", lit "/home/user1/bar"] ∧
      ∀ p ∈ [lit "/home/user1/foo", lit "/home/user1", lit "/home/user1/bar"],
        p = lit "/home/user1" ∨ lit "/home/user1" ++ [47] <+: p) ∧
    CommonPrefix filepath.Clean 47
      [lit "/home/user1/foo", lit "/home/user1", lit "/home/user1/bar"]
      = some (lit "/home/user1") :=
  ⟨by decide, CommonPrefix_contains_dir filepath.Clean 47
    [lit "/home/user1/foo", lit "/home/user1", lit "/home/user1/bar"] (lit "/home/user1")
    (by decide) (by decide) (by decide) (by decide) (by decide)⟩

/-- C17 fails on the code for a separator byte above 0x7F: with `sep = 0x80`
the sentinel appended to the first cleaned path is the byte `80`, the one
appended to each later path is `string(sep)`, the two bytes `C2 80`; so the
paths `a C2` and `a`, both left unchanged by `Clean`, are compared as
`a C2 80` and `a C2 80`, and the result `a C2` is not a prefix of the second
path. -/
theorem CommonPrefix_sentinel_high_sep :
    [(128 : Nat)] ≠ byteToString 128 ∧
    filepath.Clean [97, 194] ++ [128] = filepath.Clean [97] ++ byteToString 128 ∧
    CommonPrefix filepath.Clean 128 [[97, 194], [97]] = some [97, 194] ∧
    ¬ [97, 194] <+: filepath.Clean [97] := by
  decide

/-- C18: for an ASCII separator `sep` and two paths that `Clean` leaves
unchanged and that do not contain `sep`, `CommonPrefix` returns the longest
common byte prefix of the two paths: a prefix of both of which every common
prefix is a prefix. -/
theorem CommonPrefix_no_separator (Clean : List Nat → List Nat) (sep : Nat) (p1 p2 : List Nat)
    (hsep : sep < 128) (h1 : sep ∉ p1) (h2 : sep ∉ p2) (hc1 : Clean p1 = p1)
    (hc2 : Clean p2 = p2) :
    ∃ r, CommonPrefix Clean sep [p1, p2] = some r ∧ r <+: p1 ∧ r <+: p2 ∧
      ∀ d, d <+: p1 → d <+: p2 → d <+: r := by
  obtain ⟨r, hr, ht⟩ := CommonPrefix_cons_cons Clean sep p1 p2 []
  rw [byteToString_ascii sep hsep] at ht
  simp only [List.foldl_cons, List.foldl_nil] at ht
  rw [hc1, hc2, lcp_sentinel sep p2 p1 h2 h1] at ht
  have hrl : r = lcp p2 p1 := by
    by_cases he : p2 = p1
    · rw [if_pos he] at ht
      rw [ht.eq_of_last (by simp), he, lcp_self]
    · rw [if_neg he] at ht
      have hno : sep ∉ lcp p2 p1 := fun hm => h2 ((lcp_prefix_left p2 p1).mem hm)
      exact Trimmed.unique ht (Or.inl ⟨hno, rfl⟩)
  refine ⟨r, hr, ?_, ?_, ?_⟩
  · rw [hrl]
    exact lcp_prefix_right p2 p1
  · rw [hrl]
    exact lcp_prefix_left p2 p1
  · intro d hd1 hd2
    rw [hrl]
    exact prefix_lcp d p2 p1 hd2 hd1

theorem CommonPrefix_no_separator_witness :
    (47 < 128 ∧ 47 ∉ lit "c:\\src\\main\\java" ∧ 47 ∉ lit "c:\\src\\main\\test" ∧
      filepath.Clean (lit "c:\\src\\main\\java") = lit "c:\\src\\main\\java" ∧
      filepath.Clean (lit "c:\\src\\main\\test") = lit "c:\\src\\main\\test") ∧
    (∃ r, CommonPrefix filepath.Clean 47
        [lit "c:\\src\\main\\java", lit "c:\\src\\main\\test"] = some r ∧
      r <+: lit "c:\\src\\main\\java" ∧ r <+: lit "c:\\src\\main\\test" ∧
      ∀ d, d <+: lit "c:\\src\\main\\java" → d <+: lit "c:\\src\\main\\test" → d <+: r) ∧
    CommonPrefix filepath.Clean 47
      [lit "c:\\src\\main\\java", lit "c:\\src\\main\\test"]
      = some (lit "c:\\src\\main\\") :=
  ⟨by decide, CommonPrefix_no_separator filepath.Clean 47 (lit "c:\\src\\main\\java")
    (lit "c:\\src\\main\\test") (by decide) (by decide) (by decide) (by decide) (by decide),
    by decide⟩

/-- C19: for an ASCII separator `sep`, `CommonPrefix` returns the same result
for a list of paths and for every permutation of it. -/
theorem CommonPrefix_perm (Clean : List Nat → List Nat) (sep : Nat)
    (paths paths2 : List (List Nat)) (hsep : sep < 128) (hperm : paths.Perm paths2) :
    CommonPrefix Clean sep paths = CommonPrefix Clean sep paths2 := by
  match paths, paths2, hperm with
  | [], paths2, hperm =>
    rw [List.nil_perm.1 hperm]
  | [p], paths2, hperm =>
    rw [List.singleton_perm.1 hperm]
  | p0 :: p1 :: rest, [], hperm =>
    exact absurd hperm.length_eq (by simp)
  | p0 :: p1 :: rest, [q], hperm =>
    exact absurd hperm.length_eq (by simp)
  | p0 :: p1 :: rest, q0 :: q1 :: rest2, hperm =>
    obtain ⟨r, acc, hr, ht, hpre, hmax⟩ := CommonPrefix_ascii Clean sep hsep p0 p1 rest
    obtain ⟨r2, acc2, hr2, ht2, hpre2, hmax2⟩ := CommonPrefix_ascii Clean sep hsep q0 q1 rest2
    have h12 : acc <+: acc2 := hmax2 acc fun p hp => hpre p (hperm.mem_iff.2 hp)
    have h21 : acc2 <+: acc := hmax acc2 fun p hp => hpre2 p (hperm.mem_iff.1 hp)
    have hacc : acc = acc2 :=
      List.IsPrefix.eq_of_length h12 (Nat.le_antisymm h12.length_le h21.length_le)
    rw [hacc] at ht
    rw [hr, hr2, Trimmed.unique ht ht2]

theorem CommonPrefix_perm_witness :
    (47 < 128 ∧
      [lit "/home/user1/foo", lit "/home/user1", lit "/home/user1/bar"].Perm
        [lit "/home/user1", lit "/home/user1/bar", lit "/home/user1/foo"]) ∧
    CommonPrefix filepath.Clean 47
        [lit "/home/user1/foo", lit "/home/user1", lit "/home/user1/bar"]
      = CommonPrefix filepath.Clean 47
        [lit "/home/user1", lit "/home/user1/bar", lit "/home/user1/foo"] :=
  ⟨by decide, CommonPrefix_perm filepath.Clean 47 _ _ (by decide) (by decide)⟩

/-- C20: for every separator and every list of paths, `CommonPrefix` returns
a string: no index expression and no slice expression of the function is out
of range, in the loop over the paths (where the accumulated prefix is first
cut to the length of the shorter sequence) and in the final loop. -/
theorem CommonPrefix_no_panic (Clean : List Nat → List Nat) (sep : Nat)
    (paths : List (List Nat)) :
    (∃ r, CommonPrefix Clean sep paths = some r) ∧
    (∀ v c : List Nat, ∃ c1, truncateTo v c = some c1) ∧
    (∀ c : List Nat, ∃ r, trimLoop sep c c.length = some r) := by
  refine ⟨?_, fun v c => ⟨_, truncateTo_eq v c⟩, fun c => ?_⟩
  · match paths with
    | [] => exact ⟨[], rfl⟩
    | [p] => exact ⟨Clean p, rfl⟩
    | p0 :: p1 :: rest =>
      obtain ⟨r, hr, _⟩ := CommonPrefix_cons_cons Clean sep p0 p1 rest
      exact ⟨r, hr⟩
  · obtain ⟨r, hr, _⟩ := trimLoop_trimmed sep c
    exact ⟨r, hr⟩

/-! ## `Lint` -/

/-- C11: `Lint` returns the findings of `warn.FileWarnings`, called with the
file, the warnings list, no third argument, `warn.ModeWarn` and the file
reader of `getFileReader`, when the lint mode is `warn`; it returns no
findings for every other mode, `off` and `fix` among them; and the file
reader is absent exactly when the workspace root of the file is the empty
string. -/
theorem Lint_findings {Syntax Finding FileReader LintMode Formatted : Type}
    (w : warn.Package Syntax Finding FileReader LintMode Formatted)
    (ReadFile : List Nat → Except Err (List Nat))
    (f : build.File Syntax) (lint : List Nat) (warningsList : List (List Nat))
    (verbose : Bool) :
    (lint = lit "warn" →
      (Lint w ReadFile f lint warningsList verbose).1
        = (w.FileWarnings f warningsList none w.ModeWarn
            (getFileReader w ReadFile f.WorkspaceRoot)).1) ∧
    (lint ≠ lit "warn" → (Lint w ReadFile f lint warningsList verbose).1 = []) ∧
    (Lint w ReadFile f (lit "off") warningsList verbose).1 = [] ∧
    (Lint w ReadFile f (lit "fix") warningsList verbose).1 = [] ∧
    (getFileReader w ReadFile f.WorkspaceRoot = none ↔ f.WorkspaceRoot = lit "") := by
  have hoff : lit "off" ≠ lit "warn" := by decide
  have hfix : lit "fix" ≠ lit "warn" := by decide
  have hother : ∀ l : List Nat, l ≠ lit "warn" →
      (Lint w ReadFile f l warningsList verbose).1 = [] := by
    intro l hl
    unfold Lint
    by_cases h2 : l = lit "fix"
    · simp only [if_neg hl, if_pos h2]
    · simp only [if_neg hl, if_neg h2]
  refine ⟨fun h => ?_, hother lint, hother _ hoff, hother _ hfix, ?_⟩
  · unfold Lint
    simp only [if_pos h]
  · unfold getFileReader
    by_cases h : f.WorkspaceRoot = lit ""
    · rw [if_pos h]
      exact ⟨fun _ => h, fun _ => rfl⟩
    · rw [if_neg h]
      exact ⟨fun e => absurd e (by simp), fun e => absurd e h⟩

/-! ## `ExpandDirectories` -/

theorem starlarkPaths_append (a b : List WalkItem) :
    starlarkPaths (a ++ b) = starlarkPaths a ++ starlarkPaths b := by
  simp [starlarkPaths, List.filter_append]

theorem starlarkPaths_of_git (l : List WalkItem) (h : ∀ it ∈ l, lit ".git" ∈ it.dirs) :
    starlarkPaths l = [] := by
  unfold starlarkPaths
  rw [List.map_eq_nil_iff, List.filter_eq_nil_iff]
  intro it hit
  simp [h it hit]

mutual

/-- Every entry listed below a directory lies in the directories that
contain that directory. -/
theorem entry_items_dirs (d : List Nat) :
    ∀ (e : Entry) (path : List Nat) (dirs : List (List Nat)), d ∈ dirs →
      ∀ it ∈ e.items path dirs, d ∈ it.dirs
  | .lstatError _ _, path, dirs, _, it, hit => by simp [Entry.items] at hit
  | .file name, path, dirs, hd, it, hit => by
    simp only [Entry.items, List.mem_singleton] at hit
    rw [hit]
    exact hd
  | .unreadableDir name _, path, dirs, hd, it, hit => by
    simp only [Entry.items, List.mem_singleton] at hit
    rw [hit]
    exact hd
  | .dir name entries, path, dirs, hd, it, hit => by
    simp only [Entry.items, List.mem_cons] at hit
    rcases hit with rfl | hit
    · exact hd
    · exact entries_items_dirs d entries path (dirs ++ [name])
        (List.mem_append_left _ hd) it hit

theorem entries_items_dirs (d : List Nat) :
    ∀ (es : Entries) (path : List Nat) (dirs : List (List Nat)), d ∈ dirs →
      ∀ it ∈ es.items path dirs, d ∈ it.dirs
  | .nil, path, dirs, _, it, hit => by simp [Entries.items] at hit
  | .cons e rest, path, dirs, hd, it, hit => by
    simp only [Entries.items, List.mem_append] at hit
    rcases hit with hit | hit
    · exact entry_items_dirs d e _ dirs hd it hit
    · exact entries_items_dirs d rest path dirs hd it hit

end

theorem expandWalkFn_err (path : List Nat) (info : Option os.FileInfo) (err : Err)
    (files : List (List Nat)) :
    expandWalkFn path info (some err) files = some (files, some err) := rfl

theorem expandWalkFn_file (path name : List Nat) (files : List (List Nat)) :
    expandWalkFn path (some ⟨name, false⟩) none files
      = some (files ++ (if isStarlarkFile name then [path] else []), none) := by
  by_cases h : isStarlarkFile name = true <;> simp [expandWalkFn, skip, h]

theorem expandWalkFn_dir (path name : List Nat) (files : List (List Nat)) :
    expandWalkFn path (some ⟨name, true⟩) none files
      = some (files, if name = lit ".git" then some Err.SkipDir else none) := by
  by_cases h : name = lit ".git" <;> simp [expandWalkFn, skip, h]

theorem starlarkPaths_file (path name : List Nat) (dirs : List (List Nat))
    (h : lit ".git" ∉ dirs) :
    starlarkPaths [⟨path, name, false, dirs⟩] = if isStarlarkFile name then [path] else [] := by
  by_cases hs : isStarlarkFile name = true <;> simp [starlarkPaths, hs, h]

theorem starlarkPaths_dir (path name : List Nat) (dirs : List (List Nat)) (l : List WalkItem) :
    starlarkPaths (⟨path, name, true, dirs⟩ :: l) = starlarkPaths l := by
  simp [starlarkPaths]

mutual

/-- What the walk of one entry with the function literal of
`ExpandDirectories` does: it does not panic, it appends to `files` a list
`out` and returns an error `err` that do not depend on `files`; a
non-directory whose `lstat` succeeds gives no error; and, outside the
directories named `.git`, a walk without error has appended the Starlark
paths of the entries, a skipped entry has appended nothing and has none. -/
theorem visit_expandWalkFn : ∀ (e : Entry) (path : List Nat),
    ∃ out err, (∀ files, filepath.visit expandWalkFn path e files = some (files ++ out, err)) ∧
      (e.isDir = false → e.lstatFails = false → err = none) ∧
      ∀ dirs, lit ".git" ∉ dirs →
        (err = none → out = starlarkPaths (e.items path dirs)) ∧
        (err = some Err.SkipDir → out = [] ∧ starlarkPaths (e.items path dirs) = [])
  | .lstatError name e0, path => by
    refine ⟨[], some e0, fun files => ?_, fun _ h => ?_, fun dirs _ => ⟨fun h => ?_, fun _ => ?_⟩⟩
    · rw [filepath.visit, expandWalkFn_err, List.append_nil]
    · simp [Entry.lstatFails] at h
    · simp at h
    · exact ⟨rfl, by simp [Entry.items, starlarkPaths]⟩
  | .file name, path => by
    refine ⟨if isStarlarkFile name then [path] else [], none, fun files => ?_, fun _ _ => rfl,
      fun dirs hd => ⟨fun _ => ?_, fun h => ?_⟩⟩
    · rw [filepath.visit, expandWalkFn_file]
    · rw [Entry.items, starlarkPaths_file path name dirs hd]
    · simp at h
  | .unreadableDir name e0, path => by
    refine ⟨[], some e0, fun files => ?_, fun h _ => ?_, fun dirs _ => ⟨fun h => ?_, fun _ => ?_⟩⟩
    · rw [filepath.visit, expandWalkFn_err, List.append_nil]
    · simp [Entry.isDir] at h
    · simp at h
    · exact ⟨rfl, by rw [Entry.items, starlarkPaths_dir]; rfl⟩
  | .dir name entries, path => by
    by_cases hgit : name = lit ".git"
    · refine ⟨[], some Err.SkipDir, fun files => ?_, fun h _ => ?_,
        fun dirs _ => ⟨fun h => ?_, fun _ => ⟨rfl, ?_⟩⟩⟩
      · rw [filepath.visit, expandWalkFn_dir, if_pos hgit, List.append_nil]
      · simp [Entry.isDir] at h
      · simp at h
      · rw [Entry.items, starlarkPaths_dir]
        refine starlarkPaths_of_git _ fun it hit => ?_
        exact entries_items_dirs (lit ".git") entries path (dirs ++ [name])
          (by simp [hgit]) it hit
    · obtain ⟨out, err, hrun, hskip, hspec⟩ := walkNames_expandWalkFn entries path
      refine ⟨out, err, fun files => ?_, fun h _ => ?_, fun dirs hd => ⟨fun h => ?_, fun h => ?_⟩⟩
      · rw [filepath.visit, expandWalkFn_dir, if_neg hgit]
        exact hrun files
      · simp [Entry.isDir] at h
      · rw [Entry.items, starlarkPaths_dir]
        refine hspec (dirs ++ [name]) ?_ h
        intro hm
        rcases List.mem_append.1 hm with hm | hm
        · exact hd hm
        · exact hgit (List.mem_singleton.1 hm).symm
      · exact absurd h hskip

/-- What the loop over the entries of a directory does with the function
literal of `ExpandDirectories`; it never returns `SkipDir`. -/
theorem walkNames_expandWalkFn : ∀ (es : Entries) (path : List Nat),
    ∃ out err,
      (∀ files, filepath.walkNames expandWalkFn path es files = some (files ++ out, err)) ∧
      err ≠ some Err.SkipDir ∧
      ∀ dirs, lit ".git" ∉ dirs → err = none → out = starlarkPaths (es.items path dirs)
  | .nil, path => by
    refine ⟨[], none, fun files => ?_, by simp, fun dirs _ _ => ?_⟩
    · rw [filepath.walkNames, List.append_nil]
    · rw [Entries.items]
      rfl
  | .cons e rest, path => by
    obtain ⟨o1, e1, hrun1, hfile1, hspec1⟩ :=
      visit_expandWalkFn e (filepath.Join [path, e.name])
    obtain ⟨o2, e2, hrun2, hskip2, hspec2⟩ := walkNames_expandWalkFn rest path
    have hgo : ∀ files, filepath.walkNames expandWalkFn path rest (files ++ o1)
        = some (files ++ (o1 ++ o2), e2) := by
      intro files
      rw [hrun2, List.append_assoc]
    cases e1 with
    | none =>
      refine ⟨o1 ++ o2, e2, fun files => ?_, hskip2, fun dirs hd h => ?_⟩
      · rw [filepath.walkNames, hrun1]
        exact hgo files
      · rw [Entries.items, starlarkPaths_append, ← (hspec1 dirs hd).1 rfl, ← hspec2 dirs hd h]
    | some err =>
      by_cases hcont : err = Err.SkipDir ∧ (e.lstatFails = true ∨ e.isDir = true)
      · obtain ⟨herr, hkind⟩ := hcont
        subst herr
        refine ⟨o1 ++ o2, e2, fun files => ?_, hskip2, fun dirs hd h => ?_⟩
        · rw [filepath.walkNames, hrun1]
          rcases hkind with hk | hk
          · simp only [hk, if_true, ne_eq, not_true_eq_false, if_false]
            exact hgo files
          · by_cases hl : e.lstatFails = true
            · simp only [hl, if_true, ne_eq, not_true_eq_false, if_false]
              exact hgo files
            · simp only [hl, hk, Bool.not_true, Bool.false_or, decide_not, ne_eq,
                not_true_eq_false, decide_False, Bool.false_eq_true, if_false]
              exact hgo files
        · obtain ⟨ho1, hs1⟩ := (hspec1 dirs hd).2 rfl
          rw [Entries.items, starlarkPaths_append, hs1, ho1, ← hspec2 dirs hd h]
      · have hne : err ≠ Err.SkipDir := by
          intro herr
          apply hcont
          refine ⟨herr, ?_⟩
          by_cases hl : e.lstatFails = true
          · exact Or.inl hl
          · by_cases hk : e.isDir = true
            · exact Or.inr hk
            · have := hfile1 (by simpa using hk) (by simpa using hl)
              simp at this
        refine ⟨o1, some err, fun files => ?_, by simpa using hne, fun dirs _ h => ?_⟩
        · rw [filepath.walkNames, hrun1]
          by_cases hl : e.lstatFails = true
          · simp only [hl, if_true, ne_eq, hne, not_false_eq_true]
          · simp [hl, hne]
        · simp at h

end

/-- The walk of one argument with the function literal of
`ExpandDirectories`: it does not panic, what it appends to `files` and the
error it returns do not depend on `files`, and a walk without error has
appended the Starlark paths of the entries found. -/
theorem Walk_expandWalkFn (root : List Nat) (found : Entry) :
    ∃ out err,
      (∀ files, filepath.Walk expandWalkFn root found files = some (files ++ out, err)) ∧
      (err = none → out = starlarkPaths (found.items root [])) := by
  obtain ⟨out, err, hrun, _, hspec⟩ := visit_expandWalkFn found root
  by_cases hs : err = some Err.SkipDir
  · refine ⟨out, none, fun files => ?_, fun _ => ?_⟩
    · rw [filepath.Walk, hrun]
      simp only [hs, if_true]
    · obtain ⟨ho, hsp⟩ := (hspec [] (by simp)).2 hs
      rw [ho, hsp]
  · refine ⟨out, err, fun files => ?_, fun h => (hspec [] (by simp)).1 h⟩
    rw [filepath.Walk, hrun]
    simp only [hs, if_false]

theorem expandLoop_files (fs : FileSystem) : ∀ (args files : List (List Nat)),
    (∀ a ∈ args, ∃ info, fs.Stat a = .ok info ∧ info.IsDir = false) →
      expandLoop fs args files = some (files ++ args, none)
  | [], files, _ => by rw [expandLoop, List.append_nil]
  | a :: args, files, h => by
    obtain ⟨info, hstat, hdir⟩ := h a (by simp)
    rw [expandLoop, hstat]
    simp only [hdir, Bool.not_false, if_true]
    rw [expandLoop_files fs args (files ++ [a]) fun b hb => h b (List.mem_cons_of_mem _ hb)]
    simp

/-- C12: for every argument list in which every argument stats successfully
as a non-directory, `ExpandDirectories` returns the same list, each argument
verbatim and in the same order, with no error, whatever the names. -/
theorem ExpandDirectories_files (fs : FileSystem) (args : List (List Nat))
    (h : ∀ a ∈ args, ∃ info, fs.Stat a = .ok info ∧ info.IsDir = false) :
    ExpandDirectories fs args = some (args, none) := by
  rw [ExpandDirectories, expandLoop_files fs args [] h, List.nil_append]

theorem ExpandDirectories_files_witness :
    (∀ a ∈ [lit "BUILD", lit "README.md", lit "BUILD"],
      ∃ info, sampleFs.Stat a = .ok info ∧ info.IsDir = false) ∧
    ExpandDirectories sampleFs [lit "BUILD", lit "README.md", lit "BUILD"]
      = some ([lit "BUILD", lit "README.md", lit "BUILD"], none) ∧
    isStarlarkFile (lit "README.md") = false :=
  ⟨fun a ha => by
      simp only [List.mem_cons, List.mem_singleton, List.not_mem_nil, or_false] at ha
      rcases ha with rfl | rfl | rfl <;> exact ⟨_, rfl, rfl⟩,
    ExpandDirectories_files sampleFs [lit "BUILD", lit "README.md", lit "BUILD"]
      (fun a ha => by
        simp only [List.mem_cons, List.mem_singleton, List.not_mem_nil, or_false] at ha
        rcases ha with rfl | rfl | rfl <;> exact ⟨_, rfl, rfl⟩),
    by decide⟩

theorem expandLoop_fail (fs : FileSystem) (a : List Nat) (post : List (List Nat)) (e : Err)
    (ha : argError fs a = some e) :
    ∀ (pre files : List (List Nat)), (∀ p ∈ pre, argError fs p = none) →
      expandLoop fs (pre ++ a :: post) files = some ([], some e)
  | [], files, _ => by
    rw [List.nil_append, expandLoop]
    rw [argError] at ha
    cases hstat : fs.Stat a with
    | error err =>
      rw [hstat] at ha
      simp only [Option.some.injEq] at ha
      simp only [ha]
    | ok info =>
      rw [hstat] at ha
      obtain ⟨out, err, hrun, _⟩ := Walk_expandWalkFn a (fs.Found a)
      by_cases hdir : info.IsDir = true
      · simp only [hdir, Bool.not_true, Bool.false_eq_true, if_false, hrun] at ha ⊢
        subst ha
        rfl
      · simp [hdir] at ha
  | p :: pre, files, hpre => by
    have hp := hpre p (by simp)
    have ih := fun f => expandLoop_fail fs a post e ha pre f
      fun q hq => hpre q (List.mem_cons_of_mem _ hq)
    rw [List.cons_append, expandLoop]
    rw [argError] at hp
    cases hstat : fs.Stat p with
    | error err =>
      rw [hstat] at hp
      simp at hp
    | ok info =>
      rw [hstat] at hp
      obtain ⟨out, err, hrun, _⟩ := Walk_expandWalkFn p (fs.Found p)
      by_cases hdir : info.IsDir = true
      · simp only [hdir, Bool.not_true, Bool.false_eq_true, if_false, hrun] at hp ⊢
        subst hp
        exact ih _
      · simp only [hdir, Bool.not_false, if_true]
        exact ih _

/-- C13: if the stat or the directory walk of some argument fails, and those
of the arguments before it do not, `ExpandDirectories` returns the error of
that argument together with an empty list, whatever the earlier arguments
have collected and whatever follows. -/
theorem ExpandDirectories_fail_fast (fs : FileSystem) (pre post : List (List Nat))
    (a : List Nat) (e : Err) (hpre : ∀ p ∈ pre, argError fs p = none)
    (ha : argError fs a = some e) :
    ExpandDirectories fs (pre ++ a :: post) = some ([], some e) :=
  expandLoop_fail fs a post e ha pre [] hpre

theorem ExpandDirectories_fail_fast_witness :
    ((∀ p ∈ [lit "BUILD", lit "repo"], argError sampleFs p = none) ∧
      argError sampleFs (lit "broken") = some (Err.fsError 13)) ∧
    ExpandDirectories sampleFs ([lit "BUILD", lit "repo"] ++ lit "broken" :: [lit "missing"])
      = some ([], some (Err.fsError 13)) ∧
    ExpandDirectories sampleFs [lit "BUILD", lit "repo"]
      = some ([lit "BUILD", lit "repo/BUILD", lit "repo/pkg/defs.bzl"], none) :=
  ⟨by decide,
    ExpandDirectories_fail_fast sampleFs [lit "BUILD", lit "repo"] [lit "missing"]
      (lit "broken") (Err.fsError 13) (by decide) (by decide),
    by decide⟩

/-- A run of the loop without error appends to `files` a list that does not
depend on `files`. -/
theorem expandLoop_shift (fs : FileSystem) : ∀ (args f1 out : List (List Nat)),
    expandLoop fs args f1 = some (out, none) →
      ∃ ext, out = f1 ++ ext ∧ ∀ f2, expandLoop fs args f2 = some (f2 ++ ext, none)
  | [], f1, out, h => by
    rw [expandLoop] at h
    simp only [Option.some.injEq, Prod.mk.injEq, and_true] at h
    exact ⟨[], by rw [← h, List.append_nil], fun f2 => by rw [expandLoop, List.append_nil]⟩
  | a :: args, f1, out, h => by
    rw [expandLoop] at h
    cases hstat : fs.Stat a with
    | error err =>
      rw [hstat] at h
      simp at h
    | ok info =>
      rw [hstat] at h
      obtain ⟨ow, err, hrun, _⟩ := Walk_expandWalkFn a (fs.Found a)
      by_cases hdir : info.IsDir = true
      · simp only [hdir, Bool.not_true, Bool.false_eq_true, if_false, hrun] at h
        cases err with
        | some e0 => simp at h
        | none =>
          obtain ⟨ext, hout, hall⟩ := expandLoop_shift fs args (f1 ++ ow) out h
          refine ⟨ow ++ ext, by rw [hout, List.append_assoc], fun f2 => ?_⟩
          rw [expandLoop, hstat]
          simp only [hdir, Bool.not_true, Bool.false_eq_true, if_false, hrun]
          rw [hall, List.append_assoc]
      · simp only [hdir, Bool.not_false, if_true] at h
        obtain ⟨ext, hout, hall⟩ := expandLoop_shift fs args (f1 ++ [a]) out h
        refine ⟨[a] ++ ext, by rw [hout, List.append_assoc], fun f2 => ?_⟩
        rw [expandLoop, hstat]
        simp only [hdir, Bool.not_false, if_true]
        rw [hall, List.append_assoc]

theorem expandLoop_append (fs : FileSystem) (rest : List (List Nat)) :
    ∀ (pre f out : List (List Nat)), expandLoop fs pre f = some (out, none) →
      expandLoop fs (pre ++ rest) f = expandLoop fs rest out
  | [], f, out, h => by
    rw [expandLoop] at h
    simp only [Option.some.injEq, Prod.mk.injEq, and_true] at h
    rw [List.nil_append, h]
  | a :: pre, f, out, h => by
    rw [expandLoop] at h
    rw [List.cons_append, expandLoop]
    cases hstat : fs.Stat a with
    | error err =>
      rw [hstat] at h
      simp at h
    | ok info =>
      rw [hstat] at h
      obtain ⟨ow, err, hrun, _⟩ := Walk_expandWalkFn a (fs.Found a)
      by_cases hdir : info.IsDir = true
      · simp only [hdir, Bool.not_true, Bool.false_eq_true, if_false, hrun] at h ⊢
        cases err with
        | some e0 => simp at h
        | none => exact expandLoop_append fs rest pre _ out h
      · simp only [hdir, Bool.not_false, if_true] at h ⊢
        exact expandLoop_append fs rest pre _ out h

/-- C14: for an argument that stats as a directory and whose walk succeeds,
the paths that `ExpandDirectories` returns for it, between those of the
arguments before it and those of the arguments after it, are exactly, in the
order of the walk, the paths of the entries found at the argument and below
that are not directories, whose name satisfies `isStarlarkFile`, and that lie
in no directory of the walk named `.git`. -/
theorem ExpandDirectories_directory (fs : FileSystem) (pre post : List (List Nat))
    (arg : List Nat) (info : os.FileInfo) (files1 files2 : List (List Nat))
    (hstat : fs.Stat arg = .ok info) (hdir : info.IsDir = true)
    (hwalk : argError fs arg = none)
    (hpre : ExpandDirectories fs pre = some (files1, none))
    (hpost : ExpandDirectories fs post = some (files2, none)) :
    ExpandDirectories fs (pre ++ arg :: post)
      = some (files1 ++ starlarkPaths ((fs.Found arg).items arg []) ++ files2, none) := by
  obtain ⟨ow, err, hrun, hspec⟩ := Walk_expandWalkFn arg (fs.Found arg)
  rw [argError, hstat] at hwalk
  simp only [hdir, Bool.not_true, Bool.false_eq_true, if_false, hrun] at hwalk
  subst hwalk
  obtain ⟨ext, hext, hall⟩ := expandLoop_shift fs post [] files2 hpost
  rw [List.nil_append] at hext
  subst hext
  rw [ExpandDirectories, expandLoop_append fs (arg :: post) pre [] files1 hpre, expandLoop,
    hstat]
  simp only [hdir, Bool.not_true, Bool.false_eq_true, if_false, hrun]
  rw [hall, hspec rfl]

theorem ExpandDirectories_directory_witness :
    (sampleFs.Stat (lit "repo") = .ok ⟨lit "repo", true⟩ ∧
      (⟨lit "repo", true⟩ : os.FileInfo).IsDir = true ∧
      argError sampleFs (lit "repo") = none ∧
      ExpandDirectories sampleFs [lit "BUILD"] = some ([lit "BUILD"], none) ∧
      ExpandDirectories sampleFs [lit "x.txt"] = some ([lit "x.txt"], none)) ∧
    ExpandDirectories sampleFs ([lit "BUILD"] ++ lit "repo" :: [lit "x.txt"])
      = some ([lit "BUILD"] ++ starlarkPaths ((sampleFs.Found (lit "repo")).items (lit "repo") [])
          ++ [lit "x.txt"], none) ∧
    starlarkPaths ((sampleFs.Found (lit "repo")).items (lit "repo") [])
      = [lit "repo/BUILD", lit "repo/pkg/defs.bzl"] :=
  ⟨⟨rfl, rfl, by decide, by decide, by decide⟩,
    ExpandDirectories_directory sampleFs [lit "BUILD"] [lit "x.txt"] (lit "repo")
      ⟨lit "repo", true⟩ [lit "BUILD"] [lit "x.txt"] rfl rfl (by decide)
      (by decide) (by decide),
    by decide⟩

end Buildifier
